import Mathlib

/-!
Verification of the bip39 mnemonic codec (gofika/bip39).

Bytes are modelled as natural numbers (with the invariant that a byte is
below 256 stated as a hypothesis where it matters), Go strings as lists of
characters, and fallible functions return an Except value.  The SHA-256
primitive and the per-language 2048-word tables are external collaborators
of the library; they enter the development as parameters, constrained only
by the interface properties the library relies on (hash output is 32 bytes;
a word table has 2048 entries and its reverse map inverts it).

The mnemonic codec is translated from mnemonic.go in its current form
(the revision that carries ErrEntropyTooLarge and the multi-byte checksum
extraction); SplitMnemonic and NormalizeMnemonic come from language.go, and
DetectLanguage from the detection source file.
-/

set_option maxHeartbeats 1000000
set_option maxRecDepth 65536

namespace Bip39

/-! ### Byte and bit helpers (mathematical vocabulary used by the proofs) -/

/-- Value of a digit string, most significant digit first. -/
def digitsToNat (base : Nat) (l : List Nat) : Nat :=
  l.foldl (fun acc b => acc * base + b) 0

/-- Value of a bit string, most significant bit first. -/
def bitsToNat (l : List Nat) : Nat := digitsToNat 2 l

/-- Big-endian value of a byte string. -/
def bytesToNat (l : List Nat) : Nat := digitsToNat 256 l

/-- The eight bits of a byte, most significant first. -/
def byteBits (b : Nat) : List Nat := (List.range 8).map (fun i => b >>> (7 - i) &&& 1)

/-- The bit string of a byte string, most significant bit of each byte first. -/
def bytesBits (l : List Nat) : List Nat := l.flatMap byteBits

/-- Minimal big-endian byte representation of a natural number: the model of
the Bytes method of a nonnegative big.Int (empty for zero). -/
def natToBytes (n : Nat) : List Nat :=
  if h : n = 0 then [] else natToBytes (n / 256) ++ [n % 256]
termination_by n
decreasing_by exact Nat.div_lt_self (Nat.pos_of_ne_zero h) (by omega)

/-! ### The bit codec, translated from mnemonic.go -/

/-- Translated from extractBits in mnemonic.go: reads `length` bits starting
at bit `start` of `data` (big-endian, most significant bit of each byte
first) into an integer. -/
def extractBits (data : List Nat) (start length : Nat) : Nat :=
  (List.range length).foldl
    (fun result i =>
      (result <<< 1) ||| (data.getD ((start + i) / 8) 0 >>> (7 - (start + i) % 8) &&& 1)) 0

/-- Translated from padByteSlice in mnemonic.go: left-pads a byte slice with
zero bytes up to the given length. -/
def padByteSlice (slice : List Nat) (length : Nat) : List Nat :=
  if length ≤ slice.length then slice
  else List.replicate (length - slice.length) 0 ++ slice

/-- The model of binary.BigEndian.PutUint16 followed by big.Int.SetBytes:
the two big-endian bytes of the index truncated to 16 bits, read back as a
number. -/
def uint16be (index : Nat) : Nat := index % 65536 / 256 * 256 + index % 65536 % 256

/-! ### Whitespace handling, translated from language.go -/

/-- The ideographic space used as the Japanese delimiter. -/
def japaneseSpace : Char := Char.ofNat 12288

/-- The regular-space delimiter. -/
def regularSpace : Char := Char.ofNat 32

/-- The delimiters map of language.go: tab, newline, vertical tab, form
feed, carriage return and the ordinary space. -/
def goDelimiters : List Char :=
  [Char.ofNat 9, Char.ofNat 10, Char.ofNat 11, Char.ofNat 12, Char.ofNat 13, regularSpace]

/-- The predicate passed to strings.FieldsFunc by SplitMnemonic: true on the
ideographic space and on every entry of the delimiters map. -/
def isFieldSep (r : Char) : Bool := r == japaneseSpace || goDelimiters.contains r

/-- unicode.IsSpace of the Go standard library (the rune set with the
White_Space property), used by strings.TrimSpace. -/
def goIsSpace (r : Char) : Bool :=
  (9 ≤ r.toNat && r.toNat ≤ 13) || r.toNat == 32 || r.toNat == 133 || r.toNat == 160 ||
  r.toNat == 5760 || (8192 ≤ r.toNat && r.toNat ≤ 8202) || r.toNat == 8232 ||
  r.toNat == 8233 || r.toNat == 8239 || r.toNat == 8287 || r.toNat == 12288

/-- strings.TrimSpace: removes leading and trailing White_Space runes. -/
def goTrimSpace (s : List Char) : List Char :=
  ((s.dropWhile goIsSpace).reverse.dropWhile goIsSpace).reverse

/-- strings.FieldsFunc: the maximal runs of characters on which the
predicate is false, in order; no empty fields are produced.  The recursion
is driven by a fuel argument bounded by the string length so that the
function evaluates by structural recursion; the fuel never runs out (see
the unfolding lemmas goFields_nil and goFields_cons). -/
def goFieldsAux (f : Char → Bool) : Nat → List Char → List (List Char)
  | _, [] => []
  | 0, _ :: _ => []
  | fuel + 1, c :: rest =>
    if f c then goFieldsAux f fuel rest
    else (c :: rest.takeWhile (fun x => ! f x)) :: goFieldsAux f fuel (rest.dropWhile (fun x => ! f x))

/-- strings.FieldsFunc (see goFieldsAux). -/
def goFields (s : List Char) (f : Char → Bool) : List (List Char) := goFieldsAux f s.length s

/-- Translated from SplitMnemonic in language.go.  The closure handed to
strings.FieldsFunc flips the reported delimiter to the ideographic space
when it is applied to that rune; FieldsFunc applies the predicate to every
rune of the trimmed string, so the reported delimiter is the ideographic
space exactly when that rune occurs in the trimmed string. -/
def SplitMnemonic (mnemonic : List Char) : List (List Char) × List Char :=
  let trimmed := goTrimSpace mnemonic
  (goFields trimmed isFieldSep,
   if trimmed.contains japaneseSpace then [japaneseSpace] else [regularSpace])

/-- strings.Join: concatenation with a separator between fields. -/
def joinWords (delimiter : List Char) : List (List Char) → List Char
  | [] => []
  | [w] => w
  | w :: rest => w ++ delimiter ++ joinWords delimiter rest

/-! ### The mnemonic codec, translated from mnemonic.go -/

/-- The error values of mnemonic.go. -/
inductive Err where
  | invalidEntropy
  | invalidMnemonic
  | invalidNumberWords
  | invalidNumberEntropy
  | checksumIncorrect
  | entropyTooLarge
deriving DecidableEq

/-- The wordList, wordMap and delimiter fields of a Mnemonic value.  The
word table and its reverse map are data of the external wordlists package;
they are fields here and the registry invariants are hypotheses of the
theorems. -/
structure Mnemonic where
  wordList : List (List Char)
  wordMap : List Char → Option Nat
  delimiter : List Char

def validEntropyBits : List Nat := [128, 160, 192, 224, 256]

def isValidEntropyBits (entropyBits : Nat) : Bool := validEntropyBits.contains entropyBits

def validWordsSizes : List Nat := [12, 15, 18, 21, 24]

def isValidWordsSize (count : Nat) : Bool := validWordsSizes.contains count

/-- computeChecksum of mnemonic.go returns the SHA-256 digest of the
entropy; the hash itself is the external crypto/sha256 collaborator,
supplied as the parameter. -/
def computeChecksum (hash : List Nat → List Nat) (entropy : List Nat) : List Nat :=
  hash entropy

/-- The word-production loop shared by both encoders: word i is the table
entry at the 11-bit group starting at bit 11*i of the buffer. -/
def bufferWords (m : Mnemonic) (ewc : List Nat) (wordCount : Nat) : List (List Char) :=
  (List.range wordCount).map (fun i => m.wordList.getD (extractBits ewc (i * 11) 11) [])

/-- Translated from EntropyToMnemonic in mnemonic.go. -/
def EntropyToMnemonic (m : Mnemonic) (hash : List Nat → List Nat) (entropy : List Nat) :
    Except Err (List Char) :=
  if ! isValidEntropyBits (entropy.length * 8) then .error .invalidEntropy
  else
    let checksum := (computeChecksum hash entropy).getD 0 0
    let ewc := entropy ++ [checksum]
    .ok (joinWords m.delimiter (bufferWords m ewc (ewc.length * 8 / 11)))

/-- The zero-padding step of ArbitraryEntropyToMnemonic: right-pad with zero
bytes to the next 32-bit boundary. -/
def padTo32Bits (entropy : List Nat) : List Nat :=
  let remainder := entropy.length * 8 % 32
  if remainder ≠ 0 then entropy ++ List.replicate ((32 - remainder) / 8) 0 else entropy

/-- Translated from ArbitraryEntropyToMnemonic in mnemonic.go (current
revision: rejects padded entropy above 1024 bytes with entropyTooLarge and
appends the leading checksum bytes of the full digest). -/
def ArbitraryEntropyToMnemonic (m : Mnemonic) (hash : List Nat → List Nat)
    (entropy : List Nat) : Except Err (List Char) :=
  if entropy.length = 0 then .error .invalidEntropy
  else
    let padded := padTo32Bits entropy
    if 1024 < padded.length then .error .entropyTooLarge
    else
      let checksumHash := computeChecksum hash padded
      let checksumBits := padded.length / 4
      let checksumBytes := (checksumBits + 7) / 8
      let ewc := padded ++ checksumHash.take checksumBytes
      let wordCount := (padded.length * 8 + checksumBits) / 11
      .ok (joinWords m.delimiter (bufferWords m ewc wordCount))

/-- The word-decoding loop shared by both decoders: each word is looked up
in the reverse map, an unknown word failing with invalidMnemonic. -/
def lookupWords (m : Mnemonic) (words : List (List Char)) : Except Err (List Nat) :=
  words.mapM (fun w =>
    match m.wordMap w with
    | some index => .ok index
    | none => .error Err.invalidMnemonic)

/-- The big.Int accumulation loop of the decoders: shift by 11 bits and or
in the two big-endian bytes of the 16-bit truncated index. -/
def wordsToNat (indices : List Nat) : Nat :=
  indices.foldl (fun b index => (b * 2048) ||| uint16be index) 0

/-- The wordLengthChecksumMasks map of mnemonic.go (zero for keys the map
does not hold; such a lookup only happens after word-count validation). -/
def wordLengthChecksumMasks (wordsCount : Nat) : Nat :=
  match wordsCount with
  | 12 => 15 | 15 => 31 | 18 => 63 | 21 => 127 | 24 => 255 | _ => 0

/-- The wordLengthChecksumShifts map of mnemonic.go (one for keys the map
does not hold; the lookup only happens for word counts 12, 15, 18, 21). -/
def wordLengthChecksumShifts (wordsCount : Nat) : Nat :=
  match wordsCount with
  | 12 => 16 | 15 => 8 | 18 => 4 | 21 => 2 | _ => 1

/-- Translated from EntropyFromMnemonic in mnemonic.go. -/
def EntropyFromMnemonic (m : Mnemonic) (hash : List Nat → List Nat) (mnemonic : List Char) :
    Except Err (List Nat) :=
  let words := (SplitMnemonic mnemonic).1
  let wordsCount := words.length
  if ! isValidWordsSize wordsCount then .error .invalidNumberWords
  else
    (lookupWords m words).bind (fun indices =>
      let b := wordsToNat indices
      let checksumMask := wordLengthChecksumMasks wordsCount
      let checksum := b &&& checksumMask
      let b2 := b / (checksumMask + 1)
      let entropy := padByteSlice (natToBytes b2) (wordsCount / 3 * 4)
      let hashByte := (computeChecksum hash entropy).getD 0 0
      let entropyChecksum :=
        if wordsCount ≠ 24 then hashByte / wordLengthChecksumShifts wordsCount else hashByte
      if checksum ≠ entropyChecksum then .error .checksumIncorrect
      else .ok entropy)

/-- The checksum-recomputation expression of ArbitraryMnemonicToEntropy: up
to 8 checksum bits are taken from the high bits of the first digest byte;
beyond 8 bits, as many whole digest bytes as needed are accumulated and the
surplus low-order bits are shifted away. -/
def arbitraryChecksumValue (digest : List Nat) (checksumBits : Nat) : Nat :=
  if checksumBits ≤ 8 then digest.getD 0 0 >>> (8 - checksumBits)
  else
    let checksumBytes := (checksumBits + 7) / 8
    let folded := (List.range checksumBytes).foldl (fun acc i => (acc <<< 8) ||| digest.getD i 0) 0
    let extraBits := checksumBytes * 8 - checksumBits
    if 0 < extraBits then folded >>> extraBits else folded

/-- Translated from ArbitraryMnemonicToEntropy in mnemonic.go (current
revision: the checksum mask is built with big.Int shifts and the checksum is
recomputed from as many digest bytes as needed). -/
def ArbitraryMnemonicToEntropy (m : Mnemonic) (hash : List Nat → List Nat)
    (mnemonic : List Char) : Except Err (List Nat) :=
  let words := (SplitMnemonic mnemonic).1
  let wordsCount := words.length
  if wordsCount = 0 || wordsCount % 3 ≠ 0 then .error .invalidNumberWords
  else
    (lookupWords m words).bind (fun indices =>
      let entropySize := wordsCount / 3 * 4
      let checksumBits := entropySize / 4
      let b := wordsToNat indices
      let checksumMask := 2 ^ checksumBits - 1
      let checksum := b &&& checksumMask
      let b2 := b / (checksumMask + 1)
      let entropy := padByteSlice (natToBytes b2) entropySize
      let entropyChecksum := arbitraryChecksumValue (computeChecksum hash entropy) checksumBits
      if checksum ≠ entropyChecksum then .error .checksumIncorrect
      else .ok entropy)

/-! ### Language detection, translated from the detection source -/

/-- The Language enumeration of language.go. -/
inductive Language where
  | English
  | Japanese
  | Korean
  | Spanish
  | ChineseSimplified
  | ChineseTraditional
  | French
  | Italian
  | Czech
  | Portuguese
deriving DecidableEq

/-- The ten supported languages, the key set of innerLanguages, in
declaration order (the Go map iterates them in unspecified order; the
candidate set is modelled as a canonically ordered list). -/
def allLanguages : List Language :=
  [.English, .Japanese, .Korean, .Spanish, .ChineseSimplified, .ChineseTraditional,
   .French, .Italian, .Czech, .Portuguese]

/-- The per-language reverse word map of the wordlists package (external
data): a registry assigns each language its word-to-index map. -/
abbrev Registry := Language → List Char → Option Nat

/-- The candidate set DetectLanguage starts its word loop from: the full set
unless a non-empty restriction was supplied, further cut down to Japanese
when the detected delimiter is the ideographic space. -/
def detectStart (restrict : List Language) (delimiter : List Char) : List Language :=
  let possible :=
    if 0 < restrict.length then allLanguages.filter (fun lang => restrict.contains lang)
    else allLanguages
  if delimiter = [japaneseSpace] then possible.filter (fun lang => lang == Language.Japanese)
  else possible

/-- The word loop of DetectLanguage: drop every candidate whose table lacks
the word, and return as soon as exactly one candidate remains. -/
def detectLoop (registry : Registry) : List Language → List (List Char) → List Language × Bool
  | possible, [] => (possible, decide (0 < possible.length))
  | possible, w :: rest =>
    let narrowed := possible.filter (fun lang => (registry lang w).isSome)
    if narrowed.length = 1 then (narrowed, true)
    else detectLoop registry narrowed rest

/-- Translated from DetectLanguage in the detection source. -/
def DetectLanguage (registry : Registry) (restrict : List Language) (mnemonic : List Char) :
    List Language × Bool :=
  let split := SplitMnemonic mnemonic
  detectLoop registry (detectStart restrict split.2) split.1

/-- Modelled from the spec (section 4.4), as the comparison point of the
short-circuit refinement claim: the same narrowing loop with no early
return, checking every remaining word of the mnemonic against the candidate
tables. -/
def detectLoopFull (registry : Registry) : List Language → List (List Char) → List Language × Bool
  | possible, [] => (possible, decide (0 < possible.length))
  | possible, w :: rest =>
    detectLoopFull registry (possible.filter (fun lang => (registry lang w).isSome)) rest

/-- Modelled from the spec (section 4.4): DetectLanguage with the early
return removed. -/
def DetectLanguageFull (registry : Registry) (restrict : List Language) (mnemonic : List Char) :
    List Language × Bool :=
  let split := SplitMnemonic mnemonic
  detectLoopFull registry (detectStart restrict split.2) split.1

/-! ### Interface properties of the external collaborators -/

/-- Registry invariant of a word table: exactly 2048 words, every word
non-empty and free of White_Space characters. -/
def WordListOK (wordList : List (List Char)) : Prop :=
  wordList.length = 2048 ∧ ∀ w ∈ wordList, w ≠ [] ∧ ∀ c ∈ w, goIsSpace c = false

/-- Registry invariant of the reverse map: it inverts the word table. -/
def WordMapInv (m : Mnemonic) : Prop :=
  ∀ i < 2048, m.wordMap (m.wordList.getD i []) = some i

/-- The delimiter a Mnemonic is built with: the ordinary space, or the
ideographic space for Japanese. -/
def DelimiterOK (d : List Char) : Prop := d = [regularSpace] ∨ d = [japaneseSpace]

/-- A Mnemonic value as NewMnemonic builds it for a supported language. -/
def WellFormed (m : Mnemonic) : Prop :=
  WordListOK m.wordList ∧ WordMapInv m ∧ DelimiterOK m.delimiter

/-- Interface property of the SHA-256 collaborator: 32 output bytes, each
below 256. -/
def HashOK (hash : List Nat → List Nat) : Prop :=
  ∀ e, (hash e).length = 32 ∧ ∀ b ∈ hash e, b < 256

/-! ### Bitwise arithmetic lemmas -/

theorem two_pow_mul_lor_eq_add (k a b : Nat) (h : b < 2 ^ k) :
    ((2 ^ k * a) ||| b) = 2 ^ k * a + b := by
  apply Nat.eq_of_testBit_eq
  intro i
  rw [Nat.testBit_lor]
  rcases Nat.lt_or_ge i k with hik | hik
  · obtain ⟨j, hj⟩ : ∃ j, k = i + 1 + j := ⟨k - i - 1, by omega⟩
    have hsplit : 2 ^ k * a = 2 ^ i * (2 * (2 ^ j * a)) := by
      subst hj
      rw [pow_add, pow_add]
      ring
    have h1 : Nat.testBit (2 ^ k * a) i = false := by
      rw [Nat.testBit_to_div_mod, hsplit, Nat.mul_div_cancel_left _ (Nat.pos_pow_of_pos i (by omega))]
      simp [Nat.mul_mod_right]
    have h2 : Nat.testBit (2 ^ k * a + b) i = Nat.testBit b i := by
      have hmod : ∀ g x : Nat, (2 * g + x) % 2 = x % 2 := by omega
      rw [Nat.testBit_to_div_mod, Nat.testBit_to_div_mod, hsplit,
        Nat.mul_add_div (Nat.pos_pow_of_pos i (by omega)), hmod]
    rw [h1, h2, Bool.false_or]
  · obtain ⟨j, hj⟩ : ∃ j, i = k + j := ⟨i - k, by omega⟩
    have hb : Nat.testBit b i = false := by
      apply Nat.testBit_eq_false_of_lt
      calc b < 2 ^ k := h
        _ ≤ 2 ^ i := Nat.pow_le_pow_right (by omega) hik
    have hpow : (2 : Nat) ^ i = 2 ^ k * 2 ^ j := by rw [hj, pow_add]
    have h1 : Nat.testBit (2 ^ k * a) i = Nat.testBit a j := by
      rw [Nat.testBit_to_div_mod, Nat.testBit_to_div_mod, hpow, ← Nat.div_div_eq_div_mul,
        Nat.mul_div_cancel_left _ (Nat.pos_pow_of_pos k (by omega))]
    have h2 : Nat.testBit (2 ^ k * a + b) i = Nat.testBit a j := by
      rw [Nat.testBit_to_div_mod, Nat.testBit_to_div_mod, hpow, ← Nat.div_div_eq_div_mul,
        Nat.mul_add_div (Nat.pos_pow_of_pos k (by omega)),
        Nat.div_eq_of_lt h, Nat.add_zero]
    rw [h1, h2, hb, Bool.or_false]

/-! ### Digit-string lemmas -/

theorem foldl_digits_from (base : Nat) (l : List Nat) (a : Nat) :
    l.foldl (fun acc b => acc * base + b) a = a * base ^ l.length + digitsToNat base l := by
  induction l generalizing a with
  | nil => simp [digitsToNat]
  | cons x t ih =>
    simp only [List.foldl_cons, List.length_cons, digitsToNat, Nat.zero_mul, Nat.zero_add] at *
    rw [ih (a * base + x), ih x]
    ring

theorem digitsToNat_nil (base : Nat) : digitsToNat base [] = 0 := rfl

theorem digitsToNat_cons (base x : Nat) (t : List Nat) :
    digitsToNat base (x :: t) = x * base ^ t.length + digitsToNat base t := by
  have h := foldl_digits_from base t x
  simp only [digitsToNat, List.foldl_cons, Nat.zero_mul, Nat.zero_add]
  exact h

theorem digitsToNat_append (base : Nat) (X Y : List Nat) :
    digitsToNat base (X ++ Y) = digitsToNat base X * base ^ Y.length + digitsToNat base Y := by
  simp only [digitsToNat, List.foldl_append]
  exact foldl_digits_from base Y (X.foldl (fun acc b => acc * base + b) 0)

theorem digitsToNat_lt (base : Nat) (l : List Nat) (h : ∀ b ∈ l, b < base) :
    digitsToNat base l < base ^ l.length := by
  induction l with
  | nil => simp [digitsToNat]
  | cons x t ih =>
    rw [digitsToNat_cons]
    have hx : x < base := h x (by simp)
    have ht := ih (fun b hb => h b (by simp [hb]))
    have h1 : x * base ^ t.length + digitsToNat base t < (x + 1) * base ^ t.length := by
      rw [Nat.add_mul, Nat.one_mul]
      omega
    calc x * base ^ t.length + digitsToNat base t < (x + 1) * base ^ t.length := h1
      _ ≤ base * base ^ t.length := Nat.mul_le_mul_right _ (by omega)
      _ = base ^ (x :: t).length := by rw [List.length_cons, pow_succ]; ring

theorem digitsToNat_replicate_zero (base k : Nat) : digitsToNat base (List.replicate k 0) = 0 := by
  induction k with
  | zero => rfl
  | succ n ih => rw [List.replicate_succ, digitsToNat_cons, ih]; simp

/-! ### Bit-string lemmas for bytes -/

theorem length_byteBits (b : Nat) : (byteBits b).length = 8 := by simp [byteBits]

theorem byteBits_le_one (b : Nat) : ∀ x ∈ byteBits b, x ≤ 1 := by
  intro x hx
  simp only [byteBits, List.mem_map, List.mem_range] at hx
  obtain ⟨i, _, rfl⟩ := hx
  exact Nat.and_le_right

theorem bitsToNat_byteBits (b : Nat) (h : b < 256) : bitsToNat (byteBits b) = b := by
  simp only [bitsToNat, digitsToNat, byteBits, List.range_succ, List.range_zero,
    List.map_append, List.map_cons, List.map_nil, List.nil_append, List.append_assoc,
    List.cons_append, List.foldl_cons, List.foldl_nil, Nat.shiftRight_eq_div_pow,
    Nat.and_one_is_mod]
  omega

theorem bitsToNat_take_byteBits (b cb : Nat) (hb : b < 256) (hcb : cb ≤ 8) :
    bitsToNat ((byteBits b).take cb) = b >>> (8 - cb) := by
  rw [Nat.shiftRight_eq_div_pow]
  interval_cases cb <;>
    · simp only [bitsToNat, digitsToNat, byteBits, List.range_succ, List.range_zero,
        List.map_append, List.map_cons, List.map_nil, List.nil_append, List.append_assoc,
        List.cons_append, List.take, List.foldl_cons, List.foldl_nil,
        Nat.shiftRight_eq_div_pow, Nat.and_one_is_mod]
      omega

theorem length_bytesBits (l : List Nat) : (bytesBits l).length = 8 * l.length := by
  induction l with
  | nil => rfl
  | cons x t ih =>
    rw [bytesBits, List.flatMap_cons, List.length_append, length_byteBits]
    rw [bytesBits] at ih
    rw [ih, List.length_cons]
    ring

theorem bytesBits_append (X Y : List Nat) : bytesBits (X ++ Y) = bytesBits X ++ bytesBits Y :=
  List.flatMap_append X Y byteBits

theorem bytesBits_le_one (l : List Nat) : ∀ x ∈ bytesBits l, x ≤ 1 := by
  intro x hx
  simp only [bytesBits, List.mem_flatMap] at hx
  obtain ⟨b, _, hb⟩ := hx
  exact byteBits_le_one b x hb

theorem bitsToNat_bytesBits (l : List Nat) (h : ∀ b ∈ l, b < 256) :
    bitsToNat (bytesBits l) = bytesToNat l := by
  induction l with
  | nil => rfl
  | cons x t ih =>
    rw [show bytesBits (x :: t) = byteBits x ++ bytesBits t from List.flatMap_cons x t byteBits]
    rw [bitsToNat, digitsToNat_append, length_bytesBits]
    have hx : x < 256 := h x (by simp)
    have h2 : (2 : Nat) ^ (8 * t.length) = 256 ^ t.length := by
      rw [pow_mul]
      norm_num
    rw [h2, ← bitsToNat, ← bitsToNat, bitsToNat_byteBits x hx,
      ih (fun b hb => h b (by simp [hb])), bytesToNat, bytesToNat, digitsToNat_cons]

theorem getD_bytesBits (l : List Nat) (j : Nat) (hj : j < 8 * l.length) :
    (bytesBits l).getD j 0 = l.getD (j / 8) 0 >>> (7 - j % 8) &&& 1 := by
  induction l generalizing j with
  | nil => simp at hj
  | cons x t ih =>
    rw [show bytesBits (x :: t) = byteBits x ++ bytesBits t from List.flatMap_cons x t byteBits]
    rcases Nat.lt_or_ge j 8 with h8 | h8
    · have hjlen : j < (byteBits x).length := by rw [length_byteBits]; exact h8
      rw [List.getD_eq_getElem _ _ (by rw [List.length_append]; omega),
        List.getElem_append_left hjlen]
      have : (byteBits x)[j] = x >>> (7 - j) &&& 1 := by
        simp only [byteBits, List.getElem_map, List.getElem_range]
      rw [this]
      have hd : j / 8 = 0 := by omega
      have hm : j % 8 = j := by omega
      rw [hd, hm]
      rfl
    · have hjlen : (byteBits x).length ≤ j := by rw [length_byteBits]; exact h8
      have hlt : j - (byteBits x).length < (bytesBits t).length := by
        rw [length_byteBits, length_bytesBits]
        rw [List.length_cons] at hj
        omega
      rw [List.getD_eq_getElem _ _ (by rw [List.length_append]; omega),
        List.getElem_append_right hjlen, ← List.getD_eq_getElem _ 0 hlt]
      rw [length_byteBits]
      have ihj := ih (j - 8) (by rw [List.length_cons] at hj; omega)
      rw [ihj]
      have hd : (j - 8) / 8 = j / 8 - 1 := by omega
      have hd2 : 1 ≤ j / 8 := by omega
      have hm : (j - 8) % 8 = j % 8 := by omega
      rw [hd, hm]
      have : (x :: t).getD (j / 8) 0 = t.getD (j / 8 - 1) 0 := by
        rcases Nat.exists_eq_add_of_le hd2 with ⟨c, hc⟩
        rw [hc]
        simp [Nat.add_comm]
      rw [this]

/-! ### The bit codec as slicing of the buffer bit string -/

theorem foldl_or_eq_add (l : List Nat) (h : ∀ x ∈ l, x ≤ 1) (a : Nat) :
    l.foldl (fun r b => (r <<< 1) ||| b) a = l.foldl (fun r b => r * 2 + b) a := by
  induction l generalizing a with
  | nil => rfl
  | cons x t ih =>
    have hx : x ≤ 1 := h x (by simp)
    have hstep : (a <<< 1) ||| x = a * 2 + x := by
      have h2 := two_pow_mul_lor_eq_add 1 a x (by omega)
      rw [Nat.shiftLeft_eq]
      rw [Nat.mul_comm (2 ^ 1) a] at h2
      exact h2
    rw [List.foldl_cons, List.foldl_cons, hstep]
    exact ih (fun y hy => h y (by simp [hy])) (a * 2 + x)

theorem foldl_congr_mem {α β : Type} (l : List β) (f1 f2 : α → β → α) (a : α)
    (h : ∀ acc, ∀ x ∈ l, f1 acc x = f2 acc x) : l.foldl f1 a = l.foldl f2 a := by
  induction l generalizing a with
  | nil => rfl
  | cons x t ih =>
    rw [List.foldl_cons, List.foldl_cons, h a x (by simp)]
    exact ih _ (fun acc y hy => h acc y (by simp [hy]))

theorem bitsToNat_append (X Y : List Nat) :
    bitsToNat (X ++ Y) = bitsToNat X * 2 ^ Y.length + bitsToNat Y :=
  digitsToNat_append 2 X Y

theorem extractBits_eq_bitsToNat (data : List Nat) (start len : Nat) :
    extractBits data start len =
      bitsToNat ((List.range len).map
        (fun i => data.getD ((start + i) / 8) 0 >>> (7 - (start + i) % 8) &&& 1)) := by
  unfold extractBits bitsToNat digitsToNat
  rw [List.foldl_map]
  apply foldl_congr_mem
  intro acc i _
  have hbit : data.getD ((start + i) / 8) 0 >>> (7 - (start + i) % 8) &&& 1 ≤ 1 :=
    Nat.and_le_right
  have h2 := two_pow_mul_lor_eq_add 1 acc
    (data.getD ((start + i) / 8) 0 >>> (7 - (start + i) % 8) &&& 1) (by omega)
  rw [Nat.shiftLeft_eq]
  rw [Nat.mul_comm (2 ^ 1) acc] at h2
  exact h2

theorem extractBits_lt (data : List Nat) (start len : Nat) :
    extractBits data start len < 2 ^ len := by
  rw [extractBits_eq_bitsToNat]
  have h := digitsToNat_lt 2
    ((List.range len).map (fun i => data.getD ((start + i) / 8) 0 >>> (7 - (start + i) % 8) &&& 1))
    (by
      intro b hb
      simp only [List.mem_map, List.mem_range] at hb
      obtain ⟨i, _, rfl⟩ := hb
      have : (data.getD ((start + i) / 8) 0 >>> (7 - (start + i) % 8)) &&& 1 ≤ 1 :=
        Nat.and_le_right
      omega)
  rw [List.length_map, List.length_range] at h
  exact h

theorem map_range_getD_eq_take_drop (L : List Nat) (start len : Nat)
    (h : start + len ≤ L.length) :
    (List.range len).map (fun i => L.getD (start + i) 0) = (L.drop start).take len := by
  apply List.ext_getElem
  · simp
    omega
  · intro i hi hj
    have hil : i < len := by simpa using hi
    simp only [List.getElem_map, List.getElem_range, List.getElem_take, List.getElem_drop]
    exact List.getD_eq_getElem _ _ (by omega)

theorem extractBits_slice (data : List Nat) (start len : Nat)
    (h : start + len ≤ 8 * data.length) :
    extractBits data start len = bitsToNat (((bytesBits data).drop start).take len) := by
  rw [extractBits_eq_bitsToNat]
  congr 1
  have hmap : (List.range len).map
      (fun i => data.getD ((start + i) / 8) 0 >>> (7 - (start + i) % 8) &&& 1) =
      (List.range len).map (fun i => (bytesBits data).getD (start + i) 0) := by
    apply List.map_congr_left
    intro i hi
    rw [List.mem_range] at hi
    rw [getD_bytesBits data (start + i) (by omega)]
  rw [hmap, map_range_getD_eq_take_drop _ _ _ (by rw [length_bytesBits]; omega)]

theorem wordsToNat_packed (buffer : List Nat) (wc : Nat)
    (h : 11 * wc ≤ 8 * buffer.length) :
    wordsToNat ((List.range wc).map (fun i => extractBits buffer (i * 11) 11)) =
      bitsToNat ((bytesBits buffer).take (11 * wc)) := by
  induction wc with
  | zero => rfl
  | succ w ih =>
    have hw : 11 * w ≤ 8 * buffer.length := by omega
    have hlt : extractBits buffer (w * 11) 11 < 2048 := by
      have := extractBits_lt buffer (w * 11) 11
      norm_num at this
      exact this
    have hslice : extractBits buffer (w * 11) 11 =
        bitsToNat (((bytesBits buffer).drop (11 * w)).take 11) := by
      rw [extractBits_slice buffer (w * 11) 11 (by omega)]
      congr 2
      ring
    rw [List.range_succ, List.map_append, List.map_cons, List.map_nil]
    rw [wordsToNat, List.foldl_append, List.foldl_cons, List.foldl_nil]
    have hu : uint16be (extractBits buffer (w * 11) 11) = extractBits buffer (w * 11) 11 := by
      unfold uint16be
      omega
    rw [hu, ← wordsToNat, ih hw]
    have hlor : (bitsToNat ((bytesBits buffer).take (11 * w)) * 2048) |||
        extractBits buffer (w * 11) 11 =
        bitsToNat ((bytesBits buffer).take (11 * w)) * 2048 + extractBits buffer (w * 11) 11 := by
      have h2 := two_pow_mul_lor_eq_add 11 (bitsToNat ((bytesBits buffer).take (11 * w)))
        (extractBits buffer (w * 11) 11) (by norm_num; exact hlt)
      rw [Nat.mul_comm (2 ^ 11)] at h2
      norm_num at h2 ⊢
      exact h2
    rw [hlor, hslice]
    have hsplit : (11 : Nat) * (w + 1) = 11 * w + 11 := by ring
    rw [hsplit, List.take_add, bitsToNat_append]
    have hlen : (((bytesBits buffer).drop (11 * w)).take 11).length = 11 := by
      rw [List.length_take, List.length_drop, length_bytesBits]
      omega
    rw [hlen]
    norm_num

/-! ### Byte recovery: natToBytes and padByteSlice -/

theorem natToBytes_lt (n : Nat) : ∀ b ∈ natToBytes n, b < 256 := by
  induction n using Nat.strong_induction_on with
  | _ n ih =>
    intro b hb
    rw [natToBytes] at hb
    by_cases h : n = 0
    · simp [h] at hb
    · rw [dif_neg h] at hb
      rw [List.mem_append] at hb
      rcases hb with hb | hb
      · exact ih (n / 256) (Nat.div_lt_self (Nat.pos_of_ne_zero h) (by omega)) b hb
      · simp at hb
        omega

theorem bytesToNat_natToBytes (n : Nat) : bytesToNat (natToBytes n) = n := by
  induction n using Nat.strong_induction_on with
  | _ n ih =>
    rw [natToBytes]
    by_cases h : n = 0
    · simp [h, bytesToNat, digitsToNat]
    · rw [dif_neg h, bytesToNat, digitsToNat_append]
      rw [← bytesToNat, ih (n / 256) (Nat.div_lt_self (Nat.pos_of_ne_zero h) (by omega))]
      simp only [List.length_cons, List.length_nil, pow_one, digitsToNat_cons, digitsToNat_nil]
      omega

theorem natToBytes_length_le (n k : Nat) (h : n < 256 ^ k) : (natToBytes n).length ≤ k := by
  induction n using Nat.strong_induction_on generalizing k with
  | _ n ih =>
    rw [natToBytes]
    by_cases h0 : n = 0
    · simp [h0]
    · rw [dif_neg h0, List.length_append]
      have hk : k ≠ 0 := by
        intro hk0
        rw [hk0, pow_zero] at h
        omega
      have hdiv : n / 256 < 256 ^ (k - 1) := by
        have hsplit : 256 ^ k = 256 ^ (k - 1) * 256 := by
          rw [← pow_succ]
          congr 1
          omega
        rw [hsplit] at h
        omega
      have := ih (n / 256) (Nat.div_lt_self (Nat.pos_of_ne_zero h0) (by omega)) (k - 1) hdiv
      simp only [List.length_cons, List.length_nil]
      omega

theorem bytesToNat_lt (l : List Nat) (h : ∀ b ∈ l, b < 256) : bytesToNat l < 256 ^ l.length :=
  digitsToNat_lt 256 l h

theorem bytesToNat_replicate_zero_append (k : Nat) (l : List Nat) :
    bytesToNat (List.replicate k 0 ++ l) = bytesToNat l := by
  rw [bytesToNat, digitsToNat_append, digitsToNat_replicate_zero]
  simp [bytesToNat]

theorem bytesToNat_inj (A B : List Nat) (hlen : A.length = B.length)
    (hA : ∀ b ∈ A, b < 256) (hB : ∀ b ∈ B, b < 256)
    (hv : bytesToNat A = bytesToNat B) : A = B := by
  induction A generalizing B with
  | nil =>
    cases B with
    | nil => rfl
    | cons y t => simp at hlen
  | cons x tA ih =>
    cases B with
    | nil => simp at hlen
    | cons y tB =>
      rw [List.length_cons, List.length_cons] at hlen
      have hlen2 : tA.length = tB.length := by omega
      simp only [bytesToNat] at hv
      rw [digitsToNat_cons, digitsToNat_cons, hlen2] at hv
      have hxA : x < 256 := hA x (by simp)
      have hyB : y < 256 := hB y (by simp)
      have htA : digitsToNat 256 tA < 256 ^ tB.length := by
        rw [← hlen2]
        exact digitsToNat_lt 256 tA (fun b hb => hA b (by simp [hb]))
      have htB : digitsToNat 256 tB < 256 ^ tB.length :=
        digitsToNat_lt 256 tB (fun b hb => hB b (by simp [hb]))
      have hxy : x = y := by
        by_contra hne
        rcases Nat.lt_or_ge x y with hlt | hge
        · nlinarith [hv, htA, htB]
        · have hgt : y < x := by omega
          nlinarith [hv, htA, htB]
      subst hxy
      have htv : bytesToNat tA = bytesToNat tB := by
        simp only [bytesToNat]
        omega
      rw [ih tB hlen2 (fun b hb => hA b (by simp [hb])) (fun b hb => hB b (by simp [hb])) htv]

theorem padByteSlice_recover (E : List Nat) (h : ∀ b ∈ E, b < 256) :
    padByteSlice (natToBytes (bytesToNat E)) E.length = E := by
  set N := bytesToNat E with hN
  have hNlt : N < 256 ^ E.length := bytesToNat_lt E h
  have hlen : (natToBytes N).length ≤ E.length := natToBytes_length_le N E.length hNlt
  rw [padByteSlice]
  by_cases hc : E.length ≤ (natToBytes N).length
  · rw [if_pos hc]
    apply bytesToNat_inj _ _ (by omega) (natToBytes_lt N) h
    rw [bytesToNat_natToBytes]
  · rw [if_neg hc]
    apply bytesToNat_inj _ _ ?hl ?hb h ?hv
    case hl =>
      rw [List.length_append, List.length_replicate]
      omega
    case hb =>
      intro b hb
      rw [List.mem_append] at hb
      rcases hb with hb | hb
      · rw [List.mem_replicate] at hb
        omega
      · exact natToBytes_lt N b hb
    case hv =>
      rw [bytesToNat_replicate_zero_append, bytesToNat_natToBytes]

/-! ### The recomputed checksum value as a bit-string slice of the digest -/

theorem bytesBits_take (l : List Nat) (k : Nat) :
    bytesBits (l.take k) = (bytesBits l).take (8 * k) := by
  induction l generalizing k with
  | nil => simp [bytesBits]
  | cons x t ih =>
    cases k with
    | zero => simp [bytesBits]
    | succ j =>
      rw [List.take_succ_cons,
        show bytesBits (x :: t.take j) = byteBits x ++ bytesBits (t.take j)
          from List.flatMap_cons x _ byteBits,
        show bytesBits (x :: t) = byteBits x ++ bytesBits t from List.flatMap_cons x t byteBits,
        ih j, List.take_append_eq_append_take]
      have h1 : List.take (8 * (j + 1)) (byteBits x) = byteBits x :=
        List.take_of_length_le (by rw [length_byteBits]; omega)
      have h2 : 8 * (j + 1) - (byteBits x).length = 8 * j := by rw [length_byteBits]; omega
      rw [h1, h2]

theorem foldl_shift8_getD (L : List Nat) (k : Nat) (hk : k ≤ L.length)
    (hbytes : ∀ b ∈ L, b < 256) :
    (List.range k).foldl (fun acc i => (acc <<< 8) ||| L.getD i 0) 0 = bytesToNat (L.take k) := by
  have hmap : (List.range k).map (fun i => L.getD i 0) = L.take k := by
    have h := map_range_getD_eq_take_drop L 0 k (by omega)
    simpa using h
  have hfold : (List.range k).foldl (fun acc i => (acc <<< 8) ||| L.getD i 0) 0 =
      ((List.range k).map (fun i => L.getD i 0)).foldl (fun acc b => (acc <<< 8) ||| b) 0 := by
    rw [List.foldl_map]
  rw [hfold, hmap]
  have hcongr : (L.take k).foldl (fun acc b => (acc <<< 8) ||| b) 0 =
      (L.take k).foldl (fun acc b => acc * 256 + b) 0 := by
    apply foldl_congr_mem
    intro acc b hb
    have hblt : b < 256 := hbytes b (List.mem_of_mem_take hb)
    have h2 := two_pow_mul_lor_eq_add 8 acc b (by norm_num; exact hblt)
    rw [Nat.shiftLeft_eq]
    rw [Nat.mul_comm (2 ^ 8) acc] at h2
    norm_num at h2 ⊢
    exact h2
  rw [hcongr]
  rfl

theorem arbitraryChecksumValue_slice (digest : List Nat) (cb : Nat)
    (hlen : digest.length = 32) (hbytes : ∀ b ∈ digest, b < 256)
    (hcb1 : 1 ≤ cb) (hcb : cb ≤ 256) :
    arbitraryChecksumValue digest cb = bitsToNat ((bytesBits digest).take cb) := by
  rw [arbitraryChecksumValue]
  by_cases h8 : cb ≤ 8
  · rw [if_pos h8]
    cases digest with
    | nil => simp at hlen
    | cons d rest =>
      have hd : d < 256 := hbytes d (by simp)
      rw [show bytesBits (d :: rest) = byteBits d ++ bytesBits rest
          from List.flatMap_cons d rest byteBits]
      rw [List.take_append_eq_append_take,
        show cb - (byteBits d).length = 0 by rw [length_byteBits]; omega,
        List.take_zero, List.append_nil]
      rw [show (d :: rest).getD 0 0 = d from rfl]
      exact (bitsToNat_take_byteBits d cb hd h8).symm
  · rw [if_neg h8]
    have hcb8 : 8 < cb := by omega
    set cbBytes := (cb + 7) / 8 with hcbBytes
    have hle : cbBytes ≤ 32 := by omega
    have hcble : cb ≤ 8 * cbBytes := by omega
    have hfold := foldl_shift8_getD digest cbBytes (by omega) hbytes
    show (if 0 < cbBytes * 8 - cb
        then (List.range cbBytes).foldl (fun acc i => (acc <<< 8) ||| digest.getD i 0) 0 >>>
          (cbBytes * 8 - cb)
        else (List.range cbBytes).foldl (fun acc i => (acc <<< 8) ||| digest.getD i 0) 0) =
      bitsToNat ((bytesBits digest).take cb)
    simp only [hfold]
    set X := bytesBits (digest.take cbBytes) with hX
    have hXlen : X.length = 8 * cbBytes := by
      rw [hX, length_bytesBits, List.length_take]
      omega
    have hXtake : X = (bytesBits digest).take (8 * cbBytes) := by
      rw [hX, bytesBits_take]
    have hXval : bytesToNat (digest.take cbBytes) = bitsToNat X := by
      rw [hX, bitsToNat_bytesBits _ (fun b hb => hbytes b (List.mem_of_mem_take hb))]
    set e := cbBytes * 8 - cb with he
    have hXsplit : X = X.take cb ++ X.drop cb := (List.take_append_drop cb X).symm
    have hdroplen : (X.drop cb).length = e := by
      rw [List.length_drop, hXlen]
      omega
    have hXv2 : bitsToNat X = bitsToNat (X.take cb) * 2 ^ e + bitsToNat (X.drop cb) := by
      conv_lhs => rw [hXsplit]
      rw [bitsToNat_append, hdroplen]
    have hrlt : bitsToNat (X.drop cb) < 2 ^ e := by
      have h := digitsToNat_lt 2 (X.drop cb) (by
        intro b hb
        have := bytesBits_le_one (digest.take cbBytes) b (List.mem_of_mem_drop hb)
        omega)
      rw [hdroplen] at h
      exact h
    have hdiv : bitsToNat X >>> e = bitsToNat (X.take cb) := by
      rw [Nat.shiftRight_eq_div_pow, hXv2]
      rw [Nat.mul_comm (bitsToNat (X.take cb)) (2 ^ e)]
      rw [Nat.mul_add_div (Nat.pos_pow_of_pos e (by omega)), Nat.div_eq_of_lt hrlt]
      omega
    have htakeX : X.take cb = (bytesBits digest).take cb := by
      rw [hXtake, List.take_take]
      congr 1
      omega
    by_cases he0 : 0 < e
    · rw [if_pos he0, hXval, hdiv, htakeX]
    · rw [if_neg he0, hXval]
      have hz : bitsToNat X >>> e = bitsToNat X := by
        rw [show e = 0 by omega, Nat.shiftRight_zero]
      rw [← hz, hdiv, htakeX]

/-! ### Splitting a joined word sequence recovers the words -/

theorem mem_of_headQ {α : Type} (l : List α) (a : α) (h : l.head? = some a) : a ∈ l := by
  cases l with
  | nil => simp at h
  | cons x t =>
    simp at h
    simp [h]

theorem mem_of_getLastQ {α : Type} (l : List α) (a : α) (h : l.getLast? = some a) : a ∈ l := by
  have hmem : a ∈ l.getLast? := by rw [Option.mem_def]; exact h
  obtain ⟨hne, heq⟩ := List.mem_getLast?_eq_getLast hmem
  rw [heq]
  exact List.getLast_mem hne

theorem isFieldSep_goIsSpace (c : Char) (h : isFieldSep c = true) : goIsSpace c = true := by
  rw [isFieldSep, Bool.or_eq_true] at h
  rcases h with h | h
  · rw [show c = japaneseSpace from eq_of_beq h]
    decide
  · rw [goDelimiters] at h
    have hm : c = Char.ofNat 9 ∨ c = Char.ofNat 10 ∨ c = Char.ofNat 11 ∨ c = Char.ofNat 12 ∨
        c = Char.ofNat 13 ∨ c = regularSpace := by
      have hmem := List.elem_iff.mp h
      simpa using hmem
    rcases hm with rfl | rfl | rfl | rfl | rfl | rfl <;> decide

theorem takeWhile_append_sep {α : Type} (p : α → Bool) (t : List α) (y : α) (z : List α)
    (ht : ∀ x ∈ t, p x = true) (hy : p y = false) :
    (t ++ y :: z).takeWhile p = t := by
  induction t with
  | nil => simp [List.takeWhile_cons, hy]
  | cons a u ih =>
    rw [List.cons_append, List.takeWhile_cons, ht a (by simp)]
    simp only [if_true]
    rw [ih (fun x hx => ht x (by simp [hx]))]

theorem dropWhile_append_sep {α : Type} (p : α → Bool) (t : List α) (y : α) (z : List α)
    (ht : ∀ x ∈ t, p x = true) (hy : p y = false) :
    (t ++ y :: z).dropWhile p = y :: z := by
  induction t with
  | nil => simp [List.dropWhile_cons, hy]
  | cons a u ih =>
    rw [List.cons_append, List.dropWhile_cons, ht a (by simp)]
    simp only [if_true]
    exact ih (fun x hx => ht x (by simp [hx]))

theorem goFieldsAux_fuel (f : Char → Bool) :
    ∀ fuel1 fuel2 l, l.length ≤ fuel1 → l.length ≤ fuel2 →
      goFieldsAux f fuel1 l = goFieldsAux f fuel2 l := by
  intro fuel1
  induction fuel1 using Nat.strong_induction_on with
  | _ fuel1 ih =>
    intro fuel2 l h1 h2
    cases l with
    | nil => cases fuel1 <;> cases fuel2 <;> rfl
    | cons c rest =>
      rw [List.length_cons] at h1 h2
      cases fuel1 with
      | zero => omega
      | succ f1 =>
        cases fuel2 with
        | zero => omega
        | succ f2 =>
          simp only [goFieldsAux]
          have hd := (List.dropWhile_sublist (fun x => ! f x) (l := rest)).length_le
          by_cases hf : f c
          · rw [if_pos hf, if_pos hf]
            exact ih f1 (by omega) f2 rest (by omega) (by omega)
          · rw [if_neg hf, if_neg hf]
            congr 1
            exact ih f1 (by omega) f2 _ (by omega) (by omega)

theorem goFields_nil (f : Char → Bool) : goFields [] f = [] := rfl

theorem goFields_cons (f : Char → Bool) (c : Char) (rest : List Char) :
    goFields (c :: rest) f =
      if f c then goFields rest f
      else (c :: rest.takeWhile (fun x => ! f x)) ::
        goFields (rest.dropWhile (fun x => ! f x)) f := by
  show goFieldsAux f (c :: rest).length (c :: rest) = _
  rw [List.length_cons]
  simp only [goFieldsAux]
  by_cases hf : f c
  · rw [if_pos hf, if_pos hf]
    rfl
  · rw [if_neg hf, if_neg hf]
    congr 1
    apply goFieldsAux_fuel
    · exact (List.dropWhile_sublist (fun x => ! f x) (l := rest)).length_le
    · exact Nat.le_refl _

theorem goFields_join (c : Char) (hc : isFieldSep c = true) :
    ∀ ws : List (List Char), ws ≠ [] →
      (∀ w ∈ ws, w ≠ [] ∧ ∀ x ∈ w, isFieldSep x = false) →
      goFields (joinWords [c] ws) isFieldSep = ws := by
  intro ws
  induction ws with
  | nil => intro h; exact absurd rfl h
  | cons w rest ih =>
    intro _ hwords
    obtain ⟨hwne, hwchars⟩ := hwords w (by simp)
    cases rest with
    | nil =>
      show goFields w isFieldSep = [w]
      cases w with
      | nil => exact absurd rfl hwne
      | cons a u =>
        have ha : isFieldSep a = false := hwchars a (by simp)
        rw [goFields_cons, if_neg (by rw [ha]; simp)]
        have htake : u.takeWhile (fun x => ! isFieldSep x) = u :=
          List.takeWhile_eq_self_iff.mpr (fun x hx => by rw [hwchars x (by simp [hx])]; rfl)
        have hdrop : u.dropWhile (fun x => ! isFieldSep x) = [] :=
          List.dropWhile_eq_nil_iff.mpr (fun x hx => by rw [hwchars x (by simp [hx])]; rfl)
        rw [htake, hdrop, goFields_nil]
    | cons r tand =>
      have hjoin : joinWords [c] (w :: r :: tand) = w ++ [c] ++ joinWords [c] (r :: tand) := rfl
      rw [hjoin]
      cases w with
      | nil => exact absurd rfl hwne
      | cons a u =>
        have ha : isFieldSep a = false := hwchars a (by simp)
        have hshape : (a :: u) ++ [c] ++ joinWords [c] (r :: tand) =
            a :: (u ++ c :: joinWords [c] (r :: tand)) := by
          simp
        rw [hshape, goFields_cons, if_neg (by rw [ha]; simp)]
        have hu : ∀ x ∈ u, (fun x => ! isFieldSep x) x = true :=
          fun x hx => by simp [hwchars x (by simp [hx])]
        have hcf : (fun x => ! isFieldSep x) c = false := by simp [hc]
        rw [takeWhile_append_sep _ u c _ hu hcf, dropWhile_append_sep _ u c _ hu hcf]
        rw [goFields_cons, if_pos hc]
        rw [ih (by simp) (fun v hv => hwords v (by simp [hv]))]

theorem goTrimSpace_eq_self (l : List Char)
    (hhead : ∀ x, l.head? = some x → goIsSpace x = false)
    (hlast : ∀ x, l.getLast? = some x → goIsSpace x = false) :
    goTrimSpace l = l := by
  have h1 : l.dropWhile goIsSpace = l := by
    cases l with
    | nil => rfl
    | cons a t =>
      rw [List.dropWhile_cons, hhead a rfl]
      simp
  rw [goTrimSpace, h1]
  have h2 : l.reverse.dropWhile goIsSpace = l.reverse := by
    cases hrev : l.reverse with
    | nil => rfl
    | cons a t =>
      have hlastA : l.getLast? = some a := by
        rw [← List.head?_reverse, hrev]
        rfl
      rw [List.dropWhile_cons, hlast a hlastA]
      simp
  rw [h2, List.reverse_reverse]

theorem joinWords_ne_nil (d : List Char) (ws : List (List Char)) (hws : ws ≠ [])
    (hwords : ∀ w ∈ ws, w ≠ []) : joinWords d ws ≠ [] := by
  cases ws with
  | nil => exact absurd rfl hws
  | cons w rest =>
    have hw := hwords w (by simp)
    cases rest with
    | nil => exact hw
    | cons r t =>
      show w ++ d ++ joinWords d (r :: t) ≠ []
      cases w with
      | nil => exact absurd rfl hw
      | cons a u => simp

theorem joinWords_headQ (d : List Char) (w : List Char) (rest : List (List Char)) (hw : w ≠ []) :
    (joinWords d (w :: rest)).head? = w.head? := by
  cases rest with
  | nil => rfl
  | cons r t =>
    show (w ++ d ++ joinWords d (r :: t)).head? = w.head?
    cases w with
    | nil => exact absurd rfl hw
    | cons a u => simp

theorem joinWords_getLastQ (d : List Char) (ws : List (List Char)) (hws : ws ≠ [])
    (hwords : ∀ w ∈ ws, w ≠ []) :
    ∃ wlast ∈ ws, (joinWords d ws).getLast? = wlast.getLast? := by
  induction ws with
  | nil => exact absurd rfl hws
  | cons w rest ih =>
    cases rest with
    | nil => exact ⟨w, by simp, rfl⟩
    | cons r t =>
      obtain ⟨wl, hmem, hlast⟩ := ih (by simp) (fun v hv => hwords v (by simp [hv]))
      refine ⟨wl, by simp [hmem], ?_⟩
      show (w ++ d ++ joinWords d (r :: t)).getLast? = wl.getLast?
      rw [← hlast]
      have hne : joinWords d (r :: t) ≠ [] :=
        joinWords_ne_nil d (r :: t) (by simp) (fun v hv => hwords v (by simp [hv]))
      exact List.getLast?_append_of_ne_nil (w ++ d) hne

theorem SplitMnemonic_joinWords (ws : List (List Char)) (c : Char)
    (hws : ws ≠ [])
    (hwords : ∀ w ∈ ws, w ≠ [] ∧ ∀ x ∈ w, goIsSpace x = false)
    (hc : isFieldSep c = true) :
    (SplitMnemonic (joinWords [c] ws)).1 = ws := by
  have hwne : ∀ w ∈ ws, w ≠ [] := fun w hw => (hwords w hw).1
  have hnosep : ∀ w ∈ ws, w ≠ [] ∧ ∀ x ∈ w, isFieldSep x = false := by
    intro w hw
    refine ⟨(hwords w hw).1, fun x hx => ?_⟩
    by_contra hfs
    have hfs2 : isFieldSep x = true := by
      cases hxv : isFieldSep x
      · exact absurd hxv hfs
      · rfl
    have := isFieldSep_goIsSpace x hfs2
    rw [(hwords w hw).2 x hx] at this
    exact absurd this (by simp)
  have htrim : goTrimSpace (joinWords [c] ws) = joinWords [c] ws := by
    apply goTrimSpace_eq_self
    · intro x hx
      cases ws with
      | nil => exact absurd rfl hws
      | cons w rest =>
        rw [joinWords_headQ [c] w rest (hwne w (by simp))] at hx
        exact (hwords w (by simp)).2 x (mem_of_headQ w x hx)
    · intro x hx
      obtain ⟨wl, hmem, hlast⟩ := joinWords_getLastQ [c] ws hws hwne
      rw [hlast] at hx
      exact (hwords wl hmem).2 x (mem_of_getLastQ wl x hx)
  rw [SplitMnemonic]
  simp only [htrim]
  exact goFields_join c hc ws hws hnosep

/-! ### Decoding an encoded buffer -/

theorem mapM_ok {α β : Type} (l : List α) (f : α → Except Err β) (g : α → β)
    (h : ∀ x ∈ l, f x = .ok (g x)) : l.mapM f = .ok (l.map g) := by
  induction l with
  | nil => rfl
  | cons a t ih =>
    simp only [List.mapM_cons, h a (by simp), ih (fun x hx => h x (by simp [hx]))]
    rfl

theorem extractBits11_lt (data : List Nat) (start : Nat) : extractBits data start 11 < 2048 := by
  have h := extractBits_lt data start 11
  norm_num at h
  exact h

theorem length_bufferWords (m : Mnemonic) (ewc : List Nat) (wc : Nat) :
    (bufferWords m ewc wc).length = wc := by
  rw [bufferWords, List.length_map, List.length_range]

theorem bufferWords_wordProps (m : Mnemonic) (hwl : WordListOK m.wordList) (ewc : List Nat)
    (wc : Nat) : ∀ w ∈ bufferWords m ewc wc, w ≠ [] ∧ ∀ c ∈ w, goIsSpace c = false := by
  intro w hw
  rw [bufferWords] at hw
  simp only [List.mem_map, List.mem_range] at hw
  obtain ⟨i, _, rfl⟩ := hw
  have hlt : extractBits ewc (i * 11) 11 < 2048 := extractBits11_lt ewc (i * 11)
  have hmem : m.wordList.getD (extractBits ewc (i * 11) 11) [] ∈ m.wordList := by
    rw [List.getD_eq_getElem _ _ (by rw [hwl.1]; exact hlt)]
    exact List.getElem_mem _
  exact hwl.2 _ hmem

theorem split_of_encode (m : Mnemonic) (hm : WellFormed m) (ewc : List Nat) (wc : Nat)
    (hwc : 0 < wc) :
    (SplitMnemonic (joinWords m.delimiter (bufferWords m ewc wc))).1 = bufferWords m ewc wc := by
  obtain ⟨hwl, _, hdel⟩ := hm
  have hne : bufferWords m ewc wc ≠ [] := by
    intro hnil
    have := length_bufferWords m ewc wc
    rw [hnil] at this
    simp at this
    omega
  have hprops := bufferWords_wordProps m hwl ewc wc
  rcases hdel with hd | hd
  · rw [hd]
    exact SplitMnemonic_joinWords _ regularSpace hne hprops (by decide)
  · rw [hd]
    exact SplitMnemonic_joinWords _ japaneseSpace hne hprops (by decide)

theorem lookupWords_bufferWords (m : Mnemonic) (hlen : m.wordList.length = 2048)
    (hinv : WordMapInv m) (ewc : List Nat) (wc : Nat) :
    lookupWords m (bufferWords m ewc wc) =
      .ok ((List.range wc).map (fun i => extractBits ewc (i * 11) 11)) := by
  rw [lookupWords, bufferWords]
  have hres := mapM_ok ((List.range wc).map (fun i => m.wordList.getD (extractBits ewc (i * 11) 11) []))
    (fun w => match m.wordMap w with
      | some index => Except.ok index
      | none => Except.error Err.invalidMnemonic)
    (fun w => (m.wordMap w).getD 0)
    (by
      intro w hw
      simp only [List.mem_map, List.mem_range] at hw
      obtain ⟨i, _, rfl⟩ := hw
      have hmap := hinv (extractBits ewc (i * 11) 11) (extractBits11_lt ewc (i * 11))
      simp only [hmap, Option.getD_some])
  rw [hres, List.map_map]
  congr 1
  apply List.map_congr_left
  intro i _
  simp only [Function.comp]
  rw [hinv (extractBits ewc (i * 11) 11) (extractBits11_lt ewc (i * 11))]
  rfl

theorem wordsToNat_split (E csPart : List Nat) (wc cb : Nat)
    (hE : ∀ b ∈ E, b < 256) (hcs : ∀ b ∈ csPart, b < 256)
    (hwcbits : 11 * wc = 8 * E.length + cb)
    (hcb : cb ≤ 8 * csPart.length) :
    wordsToNat ((List.range wc).map (fun i => extractBits (E ++ csPart) (i * 11) 11)) =
      bytesToNat E * 2 ^ cb + bitsToNat ((bytesBits csPart).take cb) := by
  have hball : ∀ b ∈ E ++ csPart, b < 256 := by
    intro b hb
    rw [List.mem_append] at hb
    rcases hb with hb | hb
    · exact hE b hb
    · exact hcs b hb
  rw [wordsToNat_packed (E ++ csPart) wc (by rw [List.length_append]; omega) ]
  rw [bytesBits_append, List.take_append_eq_append_take]
  have h1 : (bytesBits E).take (11 * wc) = bytesBits E :=
    List.take_of_length_le (by rw [length_bytesBits]; omega)
  have h2 : 11 * wc - (bytesBits E).length = cb := by rw [length_bytesBits]; omega
  rw [h1, h2, bitsToNat_append]
  have hlen : ((bytesBits csPart).take cb).length = cb := by
    rw [List.length_take, length_bytesBits]
    omega
  rw [hlen, bitsToNat_bytesBits E hE]

theorem bitsToNat_take_lt (csPart : List Nat) (cb : Nat) (hcb : cb ≤ 8 * csPart.length) :
    bitsToNat ((bytesBits csPart).take cb) < 2 ^ cb := by
  have h := digitsToNat_lt 2 ((bytesBits csPart).take cb) (fun b hb => by
    have := bytesBits_le_one csPart b (List.mem_of_mem_take hb)
    omega)
  have hlen : ((bytesBits csPart).take cb).length = cb := by
    rw [List.length_take, length_bytesBits]
    omega
  rw [hlen] at h
  exact h

theorem split_value (V r cb : Nat) (hr : r < 2 ^ cb) :
    (V * 2 ^ cb + r) &&& (2 ^ cb - 1) = r ∧ (V * 2 ^ cb + r) / (2 ^ cb - 1 + 1) = V := by
  have hpos : 0 < 2 ^ cb := Nat.pos_pow_of_pos cb (by omega)
  have hmask : 2 ^ cb - 1 + 1 = 2 ^ cb := by omega
  constructor
  · rw [Nat.and_pow_two_sub_one_eq_mod, Nat.mul_comm, Nat.mul_add_mod]
    exact Nat.mod_eq_of_lt hr
  · rw [hmask, Nat.mul_comm, Nat.mul_add_div hpos, Nat.div_eq_of_lt hr]
    omega

theorem exceptBind_ok {α : Type} (a : α) (f : α → Except Err (List Nat)) :
    (Except.ok a).bind f = f a := rfl

theorem getD_zero_mem {α : Type} (l : List α) (d : α) (h : 0 < l.length) : l.getD 0 d ∈ l := by
  rw [List.getD_eq_getElem _ _ h]
  exact List.getElem_mem h

/-- Shared computation for the standard round trip at one entropy size. -/
theorem standard_roundtrip_core (m : Mnemonic) (hash : List Nat → List Nat)
    (hm : WellFormed m) (hh : HashOK hash) (e : List Nat)
    (hbytes : ∀ b ∈ e, b < 256) (n cb wc : Nat)
    (hn : e.length = n)
    (hvalid : isValidEntropyBits (n * 8) = true)
    (hwc : (n + 1) * 8 / 11 = wc)
    (hwsize : isValidWordsSize wc = true)
    (hbits : 11 * wc = 8 * n + cb)
    (hcb1 : 1 ≤ cb) (hcb8 : cb ≤ 8)
    (hmask : wordLengthChecksumMasks wc = 2 ^ cb - 1)
    (hshift24 : wc = 24 → cb = 8)
    (hshift : wc ≠ 24 → wordLengthChecksumShifts wc = 2 ^ (8 - cb))
    (hES : wc / 3 * 4 = n) (hwcpos : 0 < wc) :
    EntropyToMnemonic m hash e =
        .ok (joinWords m.delimiter (bufferWords m (e ++ [(hash e).getD 0 0]) wc)) ∧
      EntropyFromMnemonic m hash
        (joinWords m.delimiter (bufferWords m (e ++ [(hash e).getD 0 0]) wc)) = .ok e := by
  obtain ⟨hhl, hhb⟩ := hh e
  have h0lt : (hash e).getD 0 0 < 256 := hhb _ (getD_zero_mem _ _ (by omega))
  constructor
  · have hg : (!isValidEntropyBits (e.length * 8)) = false := by rw [hn, hvalid]; rfl
    simp only [EntropyToMnemonic, computeChecksum, hg, Bool.false_eq_true, if_false]
    have hlen2 : (e ++ [(hash e).getD 0 0]).length * 8 / 11 = wc := by
      rw [List.length_append, hn]
      simp
      omega
    rw [hlen2]
  · have hsplitW : (SplitMnemonic (joinWords m.delimiter
        (bufferWords m (e ++ [(hash e).getD 0 0]) wc))).1 =
        bufferWords m (e ++ [(hash e).getD 0 0]) wc :=
      split_of_encode m hm _ wc hwcpos
    have hwlen : (bufferWords m (e ++ [(hash e).getD 0 0]) wc).length = wc :=
      length_bufferWords m _ wc
    simp only [EntropyFromMnemonic]
    rw [hsplitW, hwlen]
    have hg2 : (!isValidWordsSize wc) = false := by rw [hwsize]; rfl
    simp only [hg2, Bool.false_eq_true, if_false]
    rw [lookupWords_bufferWords m hm.1.1 hm.2.1 _ wc, exceptBind_ok]
    have hb : wordsToNat ((List.range wc).map
        (fun i => extractBits (e ++ [(hash e).getD 0 0]) (i * 11) 11)) =
        bytesToNat e * 2 ^ cb + bitsToNat ((bytesBits [(hash e).getD 0 0]).take cb) :=
      wordsToNat_split e [(hash e).getD 0 0] wc cb hbytes
        (by
          intro b hb2
          rw [List.mem_singleton] at hb2
          rw [hb2]
          exact h0lt)
        (by rw [hn]; exact hbits)
        (by simp; omega)
    have hrlt : bitsToNat ((bytesBits [(hash e).getD 0 0]).take cb) < 2 ^ cb :=
      bitsToNat_take_lt [(hash e).getD 0 0] cb (by simp; omega)
    have hsv := split_value (bytesToNat e) (bitsToNat ((bytesBits [(hash e).getD 0 0]).take cb))
      cb hrlt
    simp only [hb, hmask, hsv.1, hsv.2]
    have hErec : padByteSlice (natToBytes (bytesToNat e)) (wc / 3 * 4) = e := by
      rw [hES, ← hn]
      exact padByteSlice_recover e hbytes
    rw [hErec]
    have hr2 : bitsToNat ((bytesBits [(hash e).getD 0 0]).take cb) =
        (hash e).getD 0 0 >>> (8 - cb) := by
      have hsingle : bytesBits [(hash e).getD 0 0] = byteBits ((hash e).getD 0 0) := by
        rw [bytesBits, List.flatMap_cons]
        simp [bytesBits]
      rw [hsingle]
      exact bitsToNat_take_byteBits _ cb h0lt hcb8
    simp only [computeChecksum]
    have hec : (if wc ≠ 24 then (hash e).getD 0 0 / wordLengthChecksumShifts wc
        else (hash e).getD 0 0) = (hash e).getD 0 0 / 2 ^ (8 - cb) := by
      by_cases h24 : wc = 24
      · rw [if_neg (by omega), hshift24 h24]
        norm_num
      · rw [if_pos h24, hshift h24]
    rw [hec]
    have heq : bitsToNat ((bytesBits [(hash e).getD 0 0]).take cb) =
        (hash e).getD 0 0 / 2 ^ (8 - cb) := by
      rw [hr2, Nat.shiftRight_eq_div_pow]
    rw [if_neg (by rw [heq]; simp)]

/-! ### A concrete well-formed registry and hash used to witness the theorems.
The real word tables and SHA-256 are external data; the theorems hold for
every registry and hash satisfying the interface properties, and these
concrete instances discharge those hypotheses at concrete inputs. -/

def witnessWordList : List (List Char) := (List.range 2048).map
  (fun i => [Char.ofNat (65 + i / 676), Char.ofNat (65 + (i / 26) % 26), Char.ofNat (65 + i % 26)])

def witnessWordMap (w : List Char) : Option Nat :=
  match w with
  | [a, b, c] =>
    if 65 ≤ a.toNat ∧ a.toNat < 91 ∧ 65 ≤ b.toNat ∧ b.toNat < 91 ∧ 65 ≤ c.toNat ∧ c.toNat < 91 ∧
        (a.toNat - 65) * 676 + (b.toNat - 65) * 26 + (c.toNat - 65) < 2048 then
      some ((a.toNat - 65) * 676 + (b.toNat - 65) * 26 + (c.toNat - 65))
    else none
  | _ => none

def witnessMnemonic : Mnemonic :=
  { wordList := witnessWordList, wordMap := witnessWordMap, delimiter := [regularSpace] }

def witnessHash : List Nat → List Nat := fun e => (List.range 32).map
  (fun i => (i * 37 + e.length) % 256)

theorem charOfNat_toNat (n : Nat) (h1 : 65 ≤ n) (h2 : n ≤ 90) : (Char.ofNat n).toNat = n := by
  rw [Char.ofNat, dif_pos (by constructor; omega)]
  rfl

theorem goIsSpace_letter (n : Nat) (h1 : 65 ≤ n) (h2 : n ≤ 90) :
    goIsSpace (Char.ofNat n) = false := by
  have ht : (Char.ofNat n).toNat = n := charOfNat_toNat n h1 h2
  rw [goIsSpace, ht]
  simp only [Bool.or_eq_false_iff, Bool.and_eq_false_iff, beq_eq_false_iff_ne, ne_eq,
    decide_eq_false_iff_not, Nat.not_le]
  omega

theorem witnessWordList_getD (i : Nat) (h : i < 2048) :
    witnessWordList.getD i [] =
      [Char.ofNat (65 + i / 676), Char.ofNat (65 + (i / 26) % 26), Char.ofNat (65 + i % 26)] := by
  rw [witnessWordList, List.getD_eq_getElem _ _ (by simp; omega), List.getElem_map,
    List.getElem_range]

theorem witnessMnemonic_wellFormed : WellFormed witnessMnemonic := by
  refine ⟨⟨by simp [witnessMnemonic, witnessWordList], ?_⟩, ?_, Or.inl rfl⟩
  · intro w hw
    simp only [witnessMnemonic, witnessWordList, List.mem_map, List.mem_range] at hw
    obtain ⟨i, hi, rfl⟩ := hw
    refine ⟨by simp, ?_⟩
    intro c hc
    have hc2 : c = Char.ofNat (65 + i / 676) ∨ c = Char.ofNat (65 + (i / 26) % 26) ∨
        c = Char.ofNat (65 + i % 26) := by simpa using hc
    rcases hc2 with rfl | rfl | rfl
    · exact goIsSpace_letter _ (by omega) (by omega)
    · exact goIsSpace_letter _ (by omega) (by omega)
    · exact goIsSpace_letter _ (by omega) (by omega)
  · intro i h
    show witnessWordMap (witnessWordList.getD i []) = some i
    rw [witnessWordList_getD i h, witnessWordMap]
    have h1 : (Char.ofNat (65 + i / 676)).toNat = 65 + i / 676 :=
      charOfNat_toNat _ (by omega) (by omega)
    have h2 : (Char.ofNat (65 + (i / 26) % 26)).toNat = 65 + (i / 26) % 26 :=
      charOfNat_toNat _ (by omega) (by omega)
    have h3 : (Char.ofNat (65 + i % 26)).toNat = 65 + i % 26 :=
      charOfNat_toNat _ (by omega) (by omega)
    rw [h1, h2, h3, if_pos (by omega)]
    congr 1
    omega

theorem witnessHash_ok : HashOK witnessHash := by
  intro e
  constructor
  · simp [witnessHash]
  · intro b hb
    simp only [witnessHash, List.mem_map, List.mem_range] at hb
    obtain ⟨i, _, rfl⟩ := hb
    exact Nat.mod_lt _ (by omega)

/-! ### Claim theorems -/

/-- Claim C1: for every supported language (every well-formed Mnemonic
value) and every entropy of 16, 20, 24, 28 or 32 bytes,
EntropyFromMnemonic inverts EntropyToMnemonic exactly, and
EntropyToMnemonic inverts EntropyFromMnemonic on every mnemonic that
EntropyToMnemonic produced. -/
theorem claim_C1_standard_roundtrip (m : Mnemonic) (hash : List Nat → List Nat)
    (hm : WellFormed m) (hh : HashOK hash) (e : List Nat)
    (hbytes : ∀ b ∈ e, b < 256)
    (hlen : e.length = 16 ∨ e.length = 20 ∨ e.length = 24 ∨ e.length = 28 ∨ e.length = 32) :
    ∃ s, EntropyToMnemonic m hash e = .ok s ∧
      EntropyFromMnemonic m hash s = .ok e ∧
      ∀ e2, EntropyFromMnemonic m hash s = .ok e2 → EntropyToMnemonic m hash e2 = .ok s := by
  have hcore : EntropyToMnemonic m hash e =
      .ok (joinWords m.delimiter (bufferWords m (e ++ [(hash e).getD 0 0]) ((e.length + 1) * 8 / 11))) ∧
      EntropyFromMnemonic m hash
        (joinWords m.delimiter (bufferWords m (e ++ [(hash e).getD 0 0]) ((e.length + 1) * 8 / 11))) =
        .ok e := by
    rcases hlen with h | h | h | h | h
    all_goals rw [h]
    · exact standard_roundtrip_core m hash hm hh e hbytes 16 4 12 h (by decide) (by decide)
        (by decide) (by omega) (by omega) (by omega) (by decide) (by omega)
        (fun _ => by decide) (by decide) (by decide)
    · exact standard_roundtrip_core m hash hm hh e hbytes 20 5 15 h (by decide) (by decide)
        (by decide) (by omega) (by omega) (by omega) (by decide) (by omega)
        (fun _ => by decide) (by decide) (by decide)
    · exact standard_roundtrip_core m hash hm hh e hbytes 24 6 18 h (by decide) (by decide)
        (by decide) (by omega) (by omega) (by omega) (by decide) (by omega)
        (fun _ => by decide) (by decide) (by decide)
    · exact standard_roundtrip_core m hash hm hh e hbytes 28 7 21 h (by decide) (by decide)
        (by decide) (by omega) (by omega) (by omega) (by decide) (by omega)
        (fun _ => by decide) (by decide) (by decide)
    · exact standard_roundtrip_core m hash hm hh e hbytes 32 8 24 h (by decide) (by decide)
        (by decide) (by omega) (by omega) (by omega) (by decide) (fun _ => by omega)
        (fun h24 => absurd rfl h24) (by decide) (by decide)
  refine ⟨_, hcore.1, hcore.2, ?_⟩
  intro e2 he2
  rw [hcore.2] at he2
  injection he2 with he2
  rw [← he2]
  exact hcore.1

/-- Witness for claim C1 at a concrete registry, hash and 16-byte entropy. -/
theorem claim_C1_witness :
    ∃ s, EntropyToMnemonic witnessMnemonic witnessHash (List.replicate 16 171) = .ok s ∧
      EntropyFromMnemonic witnessMnemonic witnessHash s = .ok (List.replicate 16 171) ∧
      ∀ e2, EntropyFromMnemonic witnessMnemonic witnessHash s = .ok e2 →
        EntropyToMnemonic witnessMnemonic witnessHash e2 = .ok s :=
  claim_C1_standard_roundtrip witnessMnemonic witnessHash witnessMnemonic_wellFormed
    witnessHash_ok (List.replicate 16 171)
    (by
      intro b hb
      rw [List.eq_of_mem_replicate hb]
      omega)
    (by simp)

theorem goFieldsAux_props (f : Char → Bool) :
    ∀ fuel l, ∀ w ∈ goFieldsAux f fuel l, w ≠ [] ∧ ∀ x ∈ w, f x = false := by
  intro fuel
  induction fuel with
  | zero =>
    intro l w hw
    cases l <;> simp [goFieldsAux] at hw
  | succ n ih =>
    intro l w hw
    cases l with
    | nil => simp [goFieldsAux] at hw
    | cons c rest =>
      simp only [goFieldsAux] at hw
      by_cases hf : f c
      · rw [if_pos hf] at hw
        exact ih rest w hw
      · rw [if_neg hf] at hw
        rcases List.mem_cons.mp hw with rfl | hw2
        · refine ⟨by simp, ?_⟩
          intro x hx
          rcases List.mem_cons.mp hx with rfl | hx2
          · exact Bool.eq_false_iff.mpr hf
          · have hx3 := List.mem_takeWhile_imp hx2
            simp at hx3
            exact hx3
        · exact ih _ w hw2

/-- Claim C7 (amended): SplitMnemonic trims outer whitespace and splits the
remainder into non-empty separator-free words on runs of the separator
characters, recovering exactly the words of any separator-joined word
sequence; the reported delimiter is the ideographic space exactly when that
character occurs in the trimmed remainder (not the raw input), and the
ordinary space otherwise. -/
theorem claim_C7_split_behavior :
    (∀ s : List Char, ∀ w ∈ (SplitMnemonic s).1, w ≠ [] ∧ ∀ x ∈ w, isFieldSep x = false) ∧
    (∀ (ws : List (List Char)) (c : Char), ws ≠ [] →
      (∀ w ∈ ws, w ≠ [] ∧ ∀ x ∈ w, goIsSpace x = false) → isFieldSep c = true →
      (SplitMnemonic (joinWords [c] ws)).1 = ws) ∧
    (∀ s : List Char, ((SplitMnemonic s).2 = [japaneseSpace] ↔ japaneseSpace ∈ goTrimSpace s) ∧
      ((SplitMnemonic s).2 = [japaneseSpace] ∨ (SplitMnemonic s).2 = [regularSpace])) := by
  refine ⟨?_, ?_, ?_⟩
  · intro s w hw
    exact goFieldsAux_props isFieldSep (goTrimSpace s).length (goTrimSpace s) w hw
  · intro ws c hws hwords hc
    exact SplitMnemonic_joinWords ws c hws hwords hc
  · intro s
    rw [SplitMnemonic]
    simp only
    by_cases hmem : japaneseSpace ∈ goTrimSpace s
    · rw [if_pos (List.elem_iff.mpr hmem)]
      exact ⟨by simp [hmem], Or.inl rfl⟩
    · rw [if_neg (fun hcontains => hmem (List.elem_iff.mp hcontains))]
      constructor
      · constructor
        · intro habs
          exact absurd habs (by decide)
        · intro habs
          exact absurd habs hmem
      · exact Or.inr rfl

/-- Counterexample for claim C7 as stated: the input consists of an
ideographic space followed by a letter; the ideographic space occurs in the
input, yet SplitMnemonic trims it away and reports the ordinary space as
the delimiter. -/
theorem claim_C7_counterexample :
    japaneseSpace ∈ ([japaneseSpace, Char.ofNat 97] : List Char) ∧
      (SplitMnemonic [japaneseSpace, Char.ofNat 97]).2 = [regularSpace] ∧
      [regularSpace] ≠ [japaneseSpace] := by
  decide

/-- Witness for claim C7 at concrete inputs. -/
theorem claim_C7_witness :
    (([Char.ofNat 97] : List Char) ≠ [] ∧
      ∀ x ∈ ([Char.ofNat 97] : List Char), isFieldSep x = false) ∧
    (SplitMnemonic (joinWords [regularSpace] [[Char.ofNat 97], [Char.ofNat 98]])).1 =
      [[Char.ofNat 97], [Char.ofNat 98]] ∧
    ((SplitMnemonic [Char.ofNat 97, japaneseSpace, Char.ofNat 98]).2 = [japaneseSpace] ↔
      japaneseSpace ∈ goTrimSpace [Char.ofNat 97, japaneseSpace, Char.ofNat 98]) :=
  ⟨claim_C7_split_behavior.1 [Char.ofNat 97, regularSpace, Char.ofNat 97] [Char.ofNat 97]
      (by decide),
   claim_C7_split_behavior.2.1 [[Char.ofNat 97], [Char.ofNat 98]] regularSpace (by decide)
      (by decide) (by decide),
   (claim_C7_split_behavior.2.2 [Char.ofNat 97, japaneseSpace, Char.ofNat 98]).1⟩

/-! ### Language detection claims -/

/-- A small concrete registry for the detection counterexample and
demonstrations: only English holds a word, the single letter a.  The real
word tables are external data of the wordlists package; this instance
exercises the detection algorithm itself. -/
def demoRegistry : Registry := fun lang w =>
  if lang = Language.English ∧ w = [Char.ofNat 97] then some 0 else none

theorem detectLoopFull_single (registry : Registry) (lang : Language) :
    ∀ rest, (∀ w ∈ rest, (registry lang w).isSome = true) →
      detectLoopFull registry [lang] rest = ([lang], true) := by
  intro rest
  induction rest with
  | nil => intro _; rfl
  | cons w t ih =>
    intro hall
    rw [detectLoopFull]
    have hfilter : [lang].filter (fun l => (registry l w).isSome) = [lang] := by
      rw [List.filter_cons, if_pos (hall w (by simp))]
      rfl
    rw [hfilter]
    exact ih (fun v hv => hall v (by simp [hv]))

theorem detectLoop_eq_full (registry : Registry) :
    ∀ (words : List (List Char)) (possible : List Language) (lang : Language),
      lang ∈ possible → (∀ w ∈ words, (registry lang w).isSome = true) →
      detectLoop registry possible words = detectLoopFull registry possible words := by
  intro words
  induction words with
  | nil => intro possible lang _ _; rfl
  | cons w rest ih =>
    intro possible lang hmem hall
    rw [detectLoop, detectLoopFull]
    have hmem2 : lang ∈ possible.filter (fun l => (registry l w).isSome) :=
      List.mem_filter.mpr ⟨hmem, hall w (by simp)⟩
    by_cases h1 : (possible.filter (fun l => (registry l w).isSome)).length = 1
    · rw [if_pos h1]
      have hsingle : possible.filter (fun l => (registry l w).isSome) = [lang] := by
        rcases hx : possible.filter (fun l => (registry l w).isSome) with _ | ⟨x, t⟩
        · rw [hx] at hmem2
          simp at hmem2
        · rw [hx] at h1 hmem2
          rw [List.length_cons] at h1
          have ht : t = [] := List.length_eq_zero.mp (by omega)
          rw [ht] at hmem2 ⊢
          rw [List.mem_singleton] at hmem2
          rw [hmem2]
      rw [hsingle]
      exact (detectLoopFull_single registry lang rest
        (fun v hv => hall v (by simp [hv]))).symm
    · rw [if_neg h1]
      exact ih _ lang hmem2 (fun v hv => hall v (by simp [hv]))

/-- Claim C6 (amended): the early return of DetectLanguage agrees with the
variant that checks every remaining word whenever some language of the
starting candidate set holds every word of the mnemonic in its table (in
particular, for every valid mnemonic of a candidate language).  Without
that proviso the two can differ: see the counterexample, where a later
word lies outside the sole remaining language's table. -/
theorem claim_C6_early_return (registry : Registry) (restrict : List Language) (s : List Char)
    (lang : Language)
    (hmem : lang ∈ detectStart restrict (SplitMnemonic s).2)
    (hall : ∀ w ∈ (SplitMnemonic s).1, (registry lang w).isSome = true) :
    DetectLanguage registry restrict s = DetectLanguageFull registry restrict s := by
  simp only [DetectLanguage, DetectLanguageFull]
  exact detectLoop_eq_full registry (SplitMnemonic s).1
    (detectStart restrict (SplitMnemonic s).2) lang hmem hall

/-- Counterexample for claim C6 as stated: on the two-word input a b, where
only English holds a and no language holds b, the early return reports
(English, found) after the first word while checking every word reports (no
language, not found); the results differ, and the remaining word b is not
in the remaining language's table. -/
theorem claim_C6_counterexample :
    DetectLanguage demoRegistry [] [Char.ofNat 97, regularSpace, Char.ofNat 98] =
        ([Language.English], true) ∧
      DetectLanguageFull demoRegistry [] [Char.ofNat 97, regularSpace, Char.ofNat 98] =
        ([], false) ∧
      (demoRegistry Language.English [Char.ofNat 98]).isSome = false := by
  decide

/-- Witness for claim C6 at a concrete registry and single-word input. -/
theorem claim_C6_witness :
    DetectLanguage demoRegistry [] [Char.ofNat 97] =
      DetectLanguageFull demoRegistry [] [Char.ofNat 97] :=
  claim_C6_early_return demoRegistry [] [Char.ofNat 97] Language.English (by decide) (by decide)

theorem detectStart_empty_restriction (d : List Char) :
    detectStart [] d = detectStart allLanguages d := by
  rw [detectStart, detectStart]
  have ha : (if 0 < ([] : List Language).length then
      allLanguages.filter (fun lang => ([] : List Language).contains lang)
    else allLanguages) = allLanguages := by
    rw [if_neg (by simp)]
  have hb : (if 0 < allLanguages.length then
      allLanguages.filter (fun lang => allLanguages.contains lang)
    else allLanguages) = allLanguages := by
    rw [if_pos (by simp [allLanguages])]
    decide
  rw [ha, hb]

/-- Claim C10: DetectLanguage with an explicitly supplied empty candidate
list behaves exactly as if the restriction were the full set of all ten
languages: the narrowing starts from the full set, and detection can still
report found = true. -/
theorem claim_C10_empty_restriction :
    (∀ (registry : Registry) (s : List Char),
      DetectLanguage registry [] s = DetectLanguage registry allLanguages s) ∧
    (∀ d : List Char, detectStart [] d = detectStart allLanguages d) ∧
    DetectLanguage demoRegistry [] [Char.ofNat 97] = ([Language.English], true) := by
  refine ⟨?_, detectStart_empty_restriction, by decide⟩
  intro registry s
  simp only [DetectLanguage, detectStart_empty_restriction]

/-- Claim C9: every 11-bit word index produced by extractBits with length 11
is below 2048, so the wordList access of the encoders resolves to a table
entry of a 2048-word table. -/
theorem claim_C9_index_bound : ∀ (data : List Nat) (start : Nat),
    extractBits data start 11 < 2048 ∧
    ∀ wordList : List (List Char), wordList.length = 2048 →
      wordList.getD (extractBits data start 11) [] ∈ wordList := by
  intro data start
  refine ⟨extractBits11_lt data start, ?_⟩
  intro wl hwl
  rw [List.getD_eq_getElem _ _ (by rw [hwl]; exact extractBits11_lt data start)]
  exact List.getElem_mem _

/-- Witness for claim C9 at a concrete buffer and table. -/
theorem claim_C9_witness :
    extractBits [255, 255] 0 11 < 2048 ∧
      witnessWordList.getD (extractBits [255, 255] 0 11) [] ∈ witnessWordList :=
  ⟨(claim_C9_index_bound [255, 255] 0).1,
   (claim_C9_index_bound [255, 255] 0).2 witnessWordList (by simp [witnessWordList])⟩

theorem slice_of_prefix (B : List Nat) (L s k : Nat) (hk : s + k ≤ L) :
    ((B.take L).drop s).take k = (B.drop s).take k := by
  rw [List.drop_take, List.take_take]
  congr 1
  omega

/-- Claim C8: for valid standard entropy of n bytes, the encoder packs the
entropy bits followed by exactly the first n*8/32 bits of the digest (the
most significant bits of its first byte), and produces exactly
(n*8 + n*8/32)/11 words, that is 12/15/18/21/24 words. -/
theorem claim_C8_standard_checksum (m : Mnemonic) (hash : List Nat → List Nat)
    (hm : WellFormed m) (hh : HashOK hash) (e : List Nat)
    (hbytes : ∀ b ∈ e, b < 256)
    (hlen : e.length = 16 ∨ e.length = 20 ∨ e.length = 24 ∨ e.length = 28 ∨ e.length = 32) :
    ∃ words, EntropyToMnemonic m hash e = .ok (joinWords m.delimiter words) ∧
      words.length = (e.length * 8 + e.length * 8 / 32) / 11 ∧
      (e.length = 16 → words.length = 12) ∧ (e.length = 20 → words.length = 15) ∧
      (e.length = 24 → words.length = 18) ∧ (e.length = 28 → words.length = 21) ∧
      (e.length = 32 → words.length = 24) ∧
      ∀ i, i < words.length →
        words.getD i [] = m.wordList.getD (bitsToNat
          (((bytesBits e ++ (byteBits ((hash e).getD 0 0)).take (e.length * 8 / 32)).drop
            (i * 11)).take 11)) [] := by
  obtain ⟨hhl, hhb⟩ := hh e
  have h0lt : (hash e).getD 0 0 < 256 := hhb _ (getD_zero_mem _ _ (by omega))
  have hg : (!isValidEntropyBits (e.length * 8)) = false := by
    rcases hlen with h | h | h | h | h <;> rw [h] <;> decide
  refine ⟨bufferWords m (e ++ [(hash e).getD 0 0]) ((e ++ [(hash e).getD 0 0]).length * 8 / 11),
    ?_, ?_, ?_, ?_, ?_, ?_, ?_, ?_⟩
  · simp only [EntropyToMnemonic, computeChecksum, hg, Bool.false_eq_true, if_false]
  · rw [length_bufferWords, List.length_append, List.length_cons, List.length_nil]
    omega
  · intro h
    rw [length_bufferWords, List.length_append, List.length_cons, List.length_nil, h]
  · intro h
    rw [length_bufferWords, List.length_append, List.length_cons, List.length_nil, h]
  · intro h
    rw [length_bufferWords, List.length_append, List.length_cons, List.length_nil, h]
  · intro h
    rw [length_bufferWords, List.length_append, List.length_cons, List.length_nil, h]
  · intro h
    rw [length_bufferWords, List.length_append, List.length_cons, List.length_nil, h]
  · intro i hi
    rw [length_bufferWords] at hi
    have hewclen : (e ++ [(hash e).getD 0 0]).length = e.length + 1 := by
      rw [List.length_append, List.length_cons, List.length_nil]
    have harith : 11 * ((e.length + 1) * 8 / 11) = 8 * e.length + e.length * 8 / 32 ∧
        e.length * 8 / 32 ≤ 8 := by
      rcases hlen with h | h | h | h | h <;> rw [h] <;> omega
    rw [hewclen] at hi
    have hgetD : (bufferWords m (e ++ [(hash e).getD 0 0])
        ((e ++ [(hash e).getD 0 0]).length * 8 / 11)).getD i [] =
        m.wordList.getD (extractBits (e ++ [(hash e).getD 0 0]) (i * 11) 11) [] := by
      rw [bufferWords, List.getD_eq_getElem _ _ (by
          rw [List.length_map, List.length_range, hewclen]
          exact hi),
        List.getElem_map, List.getElem_range]
    rw [hgetD]
    congr 1
    have hslice := extractBits_slice (e ++ [(hash e).getD 0 0]) (i * 11) 11 (by
      rw [hewclen]
      omega)
    rw [hslice]
    have ht1 : (bytesBits e).take (8 * e.length + e.length * 8 / 32) = bytesBits e :=
      List.take_of_length_le (by rw [length_bytesBits]; omega)
    have ht2 : 8 * e.length + e.length * 8 / 32 - (bytesBits e).length = e.length * 8 / 32 := by
      rw [length_bytesBits]
      omega
    have hsingle : bytesBits [(hash e).getD 0 0] = byteBits ((hash e).getD 0 0) := by
      rw [bytesBits, List.flatMap_cons]
      simp [bytesBits]
    have hcombined : bytesBits e ++ (byteBits ((hash e).getD 0 0)).take (e.length * 8 / 32) =
        (bytesBits (e ++ [(hash e).getD 0 0])).take (8 * e.length + e.length * 8 / 32) := by
      rw [bytesBits_append, List.take_append_eq_append_take, ht1, ht2, hsingle]
    rw [hcombined, slice_of_prefix _ _ _ _ (by omega)]

/-- Witness for claim C8 at a concrete registry, hash and 20-byte entropy. -/
theorem claim_C8_witness :
    ∃ words, EntropyToMnemonic witnessMnemonic witnessHash (List.replicate 20 7) =
        .ok (joinWords witnessMnemonic.delimiter words) ∧
      words.length = ((List.replicate 20 7 : List Nat).length * 8 +
        (List.replicate 20 7 : List Nat).length * 8 / 32) / 11 ∧
      ((List.replicate 20 7 : List Nat).length = 16 → words.length = 12) ∧
      ((List.replicate 20 7 : List Nat).length = 20 → words.length = 15) ∧
      ((List.replicate 20 7 : List Nat).length = 24 → words.length = 18) ∧
      ((List.replicate 20 7 : List Nat).length = 28 → words.length = 21) ∧
      ((List.replicate 20 7 : List Nat).length = 32 → words.length = 24) ∧
      ∀ i, i < words.length →
        words.getD i [] = witnessMnemonic.wordList.getD (bitsToNat
          (((bytesBits (List.replicate 20 7) ++
            (byteBits ((witnessHash (List.replicate 20 7)).getD 0 0)).take
              ((List.replicate 20 7 : List Nat).length * 8 / 32)).drop (i * 11)).take 11)) [] :=
  claim_C8_standard_checksum witnessMnemonic witnessHash witnessMnemonic_wellFormed
    witnessHash_ok (List.replicate 20 7)
    (by
      intro b hb
      rw [List.eq_of_mem_replicate hb]
      omega)
    (by simp)

/-! ### The arbitrary-length codec -/

theorem padTo32Bits_append (e : List Nat) :
    ∃ p, p < 4 ∧ padTo32Bits e = e ++ List.replicate p 0 ∧
      (padTo32Bits e).length = e.length + p ∧ (padTo32Bits e).length % 4 = 0 := by
  rw [padTo32Bits]
  by_cases h : e.length * 8 % 32 ≠ 0
  · rw [if_pos h]
    refine ⟨(32 - e.length * 8 % 32) / 8, by omega, rfl, ?_, ?_⟩
    · rw [List.length_append, List.length_replicate]
    · rw [List.length_append, List.length_replicate]
      omega
  · rw [if_neg h]
    refine ⟨0, by omega, by simp, by simp, by omega⟩

theorem padTo32Bits_of_mod (l : List Nat) (h : l.length % 4 = 0) : padTo32Bits l = l := by
  rw [padTo32Bits, if_neg (by omega)]

theorem padTo32Bits_bytes (e : List Nat) (hbytes : ∀ b ∈ e, b < 256) :
    ∀ b ∈ padTo32Bits e, b < 256 := by
  obtain ⟨p, _, hpad, _, _⟩ := padTo32Bits_append e
  rw [hpad]
  intro b hb
  rw [List.mem_append] at hb
  rcases hb with hb | hb
  · exact hbytes b hb
  · rw [List.eq_of_mem_replicate hb]
    omega

theorem arbitrary_encode_eq (m : Mnemonic) (hash : List Nat → List Nat) (e : List Nat)
    (hne : e.length ≠ 0) (hle : (padTo32Bits e).length ≤ 1024) :
    ArbitraryEntropyToMnemonic m hash e = .ok (joinWords m.delimiter (bufferWords m
      (padTo32Bits e ++ (hash (padTo32Bits e)).take (((padTo32Bits e).length / 4 + 7) / 8))
      (((padTo32Bits e).length * 8 + (padTo32Bits e).length / 4) / 11))) := by
  simp only [ArbitraryEntropyToMnemonic, computeChecksum]
  rw [if_neg hne, if_neg (by omega)]

/-- Shared computation for the arbitrary-length round trip. -/
theorem arbitrary_roundtrip_core (m : Mnemonic) (hash : List Nat → List Nat)
    (hm : WellFormed m) (hh : HashOK hash) (e : List Nat)
    (hbytes : ∀ b ∈ e, b < 256) (hne : e.length ≠ 0)
    (hle : (padTo32Bits e).length ≤ 1024) :
    ArbitraryEntropyToMnemonic m hash e = .ok (joinWords m.delimiter (bufferWords m
      (padTo32Bits e ++ (hash (padTo32Bits e)).take (((padTo32Bits e).length / 4 + 7) / 8))
      (((padTo32Bits e).length * 8 + (padTo32Bits e).length / 4) / 11))) ∧
    ArbitraryMnemonicToEntropy m hash (joinWords m.delimiter (bufferWords m
      (padTo32Bits e ++ (hash (padTo32Bits e)).take (((padTo32Bits e).length / 4 + 7) / 8))
      (((padTo32Bits e).length * 8 + (padTo32Bits e).length / 4) / 11))) =
      .ok (padTo32Bits e) := by
  obtain ⟨p, hp4, hpad, hplen, hpmod⟩ := padTo32Bits_append e
  have hPbytes : ∀ b ∈ padTo32Bits e, b < 256 := padTo32Bits_bytes e hbytes
  obtain ⟨hhl, hhb⟩ := hh (padTo32Bits e)
  have hPlen4 : 4 ≤ (padTo32Bits e).length := by omega
  have hk1 : 1 ≤ (padTo32Bits e).length / 4 := by omega
  have hk256 : (padTo32Bits e).length / 4 ≤ 256 := by omega
  have hcslen : ((hash (padTo32Bits e)).take (((padTo32Bits e).length / 4 + 7) / 8)).length =
      ((padTo32Bits e).length / 4 + 7) / 8 := by
    rw [List.length_take, hhl]
    omega
  have hcsbytes : ∀ b ∈ (hash (padTo32Bits e)).take (((padTo32Bits e).length / 4 + 7) / 8),
      b < 256 := fun b hb => hhb b (List.mem_of_mem_take hb)
  have hwc3k : ((padTo32Bits e).length * 8 + (padTo32Bits e).length / 4) / 11 =
      3 * ((padTo32Bits e).length / 4) := by omega
  have hwcbits : 11 * (((padTo32Bits e).length * 8 + (padTo32Bits e).length / 4) / 11) =
      8 * (padTo32Bits e).length + (padTo32Bits e).length / 4 := by omega
  have hwcpos : 0 < ((padTo32Bits e).length * 8 + (padTo32Bits e).length / 4) / 11 := by omega
  refine ⟨arbitrary_encode_eq m hash e hne hle, ?_⟩
  have hsplitW := split_of_encode m hm
    (padTo32Bits e ++ (hash (padTo32Bits e)).take (((padTo32Bits e).length / 4 + 7) / 8))
    (((padTo32Bits e).length * 8 + (padTo32Bits e).length / 4) / 11) hwcpos
  have hwlen := length_bufferWords m
    (padTo32Bits e ++ (hash (padTo32Bits e)).take (((padTo32Bits e).length / 4 + 7) / 8))
    (((padTo32Bits e).length * 8 + (padTo32Bits e).length / 4) / 11)
  simp only [ArbitraryMnemonicToEntropy]
  rw [hsplitW, hwlen]
  rw [if_neg (by
    simp only [hwc3k]
    simp
    omega)]
  rw [lookupWords_bufferWords m hm.1.1 hm.2.1 _ _, exceptBind_ok]
  have hcbeq : ((padTo32Bits e).length * 8 + (padTo32Bits e).length / 4) / 11 / 3 * 4 / 4 =
      (padTo32Bits e).length / 4 := by omega
  have hESeq : ((padTo32Bits e).length * 8 + (padTo32Bits e).length / 4) / 11 / 3 * 4 =
      (padTo32Bits e).length := by omega
  rw [hcbeq, hESeq]
  have hb := wordsToNat_split (padTo32Bits e)
    ((hash (padTo32Bits e)).take (((padTo32Bits e).length / 4 + 7) / 8))
    (((padTo32Bits e).length * 8 + (padTo32Bits e).length / 4) / 11)
    ((padTo32Bits e).length / 4) hPbytes hcsbytes hwcbits
    (by rw [hcslen]; omega)
  have hrlt := bitsToNat_take_lt
    ((hash (padTo32Bits e)).take (((padTo32Bits e).length / 4 + 7) / 8))
    ((padTo32Bits e).length / 4) (by rw [hcslen]; omega)
  have hsv := split_value (bytesToNat (padTo32Bits e))
    (bitsToNat ((bytesBits ((hash (padTo32Bits e)).take
      (((padTo32Bits e).length / 4 + 7) / 8))).take ((padTo32Bits e).length / 4)))
    ((padTo32Bits e).length / 4) hrlt
  simp only [hb, hsv.1, hsv.2]
  rw [padByteSlice_recover (padTo32Bits e) hPbytes]
  simp only [computeChecksum]
  have hacv := arbitraryChecksumValue_slice (hash (padTo32Bits e)) ((padTo32Bits e).length / 4)
    hhl hhb hk1 hk256
  have hreq : bitsToNat ((bytesBits ((hash (padTo32Bits e)).take
      (((padTo32Bits e).length / 4 + 7) / 8))).take ((padTo32Bits e).length / 4)) =
      bitsToNat ((bytesBits (hash (padTo32Bits e))).take ((padTo32Bits e).length / 4)) := by
    rw [bytesBits_take, List.take_take]
    congr 2
    omega
  rw [if_neg (by rw [hacv, ← hreq]; simp)]

/-- Claim C3: the generalized decoder inverts the generalized encoder: the
decoded entropy is the input bytes unchanged followed by zero padding up to
the next 4-byte boundary, and re-encoding the decoded entropy reproduces
the mnemonic. -/
theorem claim_C3_arbitrary_roundtrip (m : Mnemonic) (hash : List Nat → List Nat)
    (hm : WellFormed m) (hh : HashOK hash) (e : List Nat)
    (hbytes : ∀ b ∈ e, b < 256) (hne : e.length ≠ 0)
    (hle : (padTo32Bits e).length ≤ 1024) :
    ∃ s, ArbitraryEntropyToMnemonic m hash e = .ok s ∧
      ArbitraryMnemonicToEntropy m hash s =
        .ok (e ++ List.replicate ((padTo32Bits e).length - e.length) 0) ∧
      ∀ e2, ArbitraryMnemonicToEntropy m hash s = .ok e2 →
        ArbitraryEntropyToMnemonic m hash e2 = .ok s := by
  obtain ⟨henc, hdec⟩ := arbitrary_roundtrip_core m hash hm hh e hbytes hne hle
  obtain ⟨p, hp4, hpad, hplen, hpmod⟩ := padTo32Bits_append e
  have hpadeq : e ++ List.replicate ((padTo32Bits e).length - e.length) 0 = padTo32Bits e := by
    have hdiff : (padTo32Bits e).length - e.length = p := by omega
    rw [hdiff, ← hpad]
  refine ⟨_, henc, by rw [hpadeq]; exact hdec, ?_⟩
  intro e2 he2
  rw [hdec] at he2
  injection he2 with he2
  rw [← he2]
  have hidem : padTo32Bits (padTo32Bits e) = padTo32Bits e := padTo32Bits_of_mod _ hpmod
  have henc2 := arbitrary_encode_eq m hash (padTo32Bits e) (by omega) (by rw [hidem]; exact hle)
  rw [hidem] at henc2
  exact henc2

/-- Witness for claim C3 at a concrete registry, hash and 5-byte entropy
(padded to 8 bytes). -/
theorem claim_C3_witness :
    ∃ s, ArbitraryEntropyToMnemonic witnessMnemonic witnessHash (List.replicate 5 33) = .ok s ∧
      ArbitraryMnemonicToEntropy witnessMnemonic witnessHash s =
        .ok (List.replicate 5 33 ++
          List.replicate ((padTo32Bits (List.replicate 5 33)).length -
            (List.replicate 5 33 : List Nat).length) 0) ∧
      ∀ e2, ArbitraryMnemonicToEntropy witnessMnemonic witnessHash s = .ok e2 →
        ArbitraryEntropyToMnemonic witnessMnemonic witnessHash e2 = .ok s :=
  claim_C3_arbitrary_roundtrip witnessMnemonic witnessHash witnessMnemonic_wellFormed
    witnessHash_ok (List.replicate 5 33)
    (by
      intro b hb
      rw [List.eq_of_mem_replicate hb]
      omega)
    (by simp)
    (by decide)

/-- Claim C2: in the generalized variant the appended checksum bits are the
leading paddedBytes/4 bits of the digest of the padded entropy, drawn from
as many distinct digest bytes as needed; the decoder recomputes the same
leading-bit value from the digest. -/
theorem claim_C2_arbitrary_checksum (m : Mnemonic) (hash : List Nat → List Nat)
    (hm : WellFormed m) (hh : HashOK hash) (e : List Nat)
    (hbytes : ∀ b ∈ e, b < 256) (hne : e.length ≠ 0)
    (hle : (padTo32Bits e).length ≤ 1024) :
    (∃ words, ArbitraryEntropyToMnemonic m hash e = .ok (joinWords m.delimiter words) ∧
      words.length = 3 * ((padTo32Bits e).length / 4) ∧
      ∀ i, i < words.length → words.getD i [] = m.wordList.getD (bitsToNat
        (((bytesBits (padTo32Bits e) ++ (bytesBits (hash (padTo32Bits e))).take
          ((padTo32Bits e).length / 4)).drop (i * 11)).take 11)) []) ∧
    ∀ E : List Nat, ∀ cb : Nat, 1 ≤ cb → cb ≤ 256 →
      arbitraryChecksumValue (computeChecksum hash E) cb =
        bitsToNat ((bytesBits (hash E)).take cb) := by
  obtain ⟨p, hp4, hpad, hplen, hpmod⟩ := padTo32Bits_append e
  obtain ⟨hhl, hhb⟩ := hh (padTo32Bits e)
  have hPlen4 : 4 ≤ (padTo32Bits e).length := by omega
  constructor
  · refine ⟨bufferWords m
      (padTo32Bits e ++ (hash (padTo32Bits e)).take (((padTo32Bits e).length / 4 + 7) / 8))
      (((padTo32Bits e).length * 8 + (padTo32Bits e).length / 4) / 11),
      arbitrary_encode_eq m hash e hne hle, ?_, ?_⟩
    · rw [length_bufferWords]
      omega
    · intro i hi
      rw [length_bufferWords] at hi
      have hgetD : (bufferWords m
          (padTo32Bits e ++ (hash (padTo32Bits e)).take (((padTo32Bits e).length / 4 + 7) / 8))
          (((padTo32Bits e).length * 8 + (padTo32Bits e).length / 4) / 11)).getD i [] =
          m.wordList.getD (extractBits
            (padTo32Bits e ++ (hash (padTo32Bits e)).take (((padTo32Bits e).length / 4 + 7) / 8))
            (i * 11) 11) [] := by
        rw [bufferWords, List.getD_eq_getElem _ _ (by
            rw [List.length_map, List.length_range]
            exact hi),
          List.getElem_map, List.getElem_range]
      rw [hgetD]
      congr 1
      have hbuflen : (padTo32Bits e ++
          (hash (padTo32Bits e)).take (((padTo32Bits e).length / 4 + 7) / 8)).length =
          (padTo32Bits e).length + ((padTo32Bits e).length / 4 + 7) / 8 := by
        rw [List.length_append, List.length_take, hhl]
        omega
      have hslice := extractBits_slice
        (padTo32Bits e ++ (hash (padTo32Bits e)).take (((padTo32Bits e).length / 4 + 7) / 8))
        (i * 11) 11 (by rw [hbuflen]; omega)
      rw [hslice]
      have ht1 : (bytesBits (padTo32Bits e)).take
          (8 * (padTo32Bits e).length + (padTo32Bits e).length / 4) = bytesBits (padTo32Bits e) :=
        List.take_of_length_le (by rw [length_bytesBits]; omega)
      have ht2 : 8 * (padTo32Bits e).length + (padTo32Bits e).length / 4 -
          (bytesBits (padTo32Bits e)).length = (padTo32Bits e).length / 4 := by
        rw [length_bytesBits]
        omega
      have hcombined : bytesBits (padTo32Bits e) ++
          (bytesBits (hash (padTo32Bits e))).take ((padTo32Bits e).length / 4) =
          (bytesBits (padTo32Bits e ++
            (hash (padTo32Bits e)).take (((padTo32Bits e).length / 4 + 7) / 8))).take
            (8 * (padTo32Bits e).length + (padTo32Bits e).length / 4) := by
        rw [bytesBits_append, List.take_append_eq_append_take, ht1, ht2, bytesBits_take,
          List.take_take]
        congr 2
        omega
      rw [hcombined, slice_of_prefix _ _ _ _ (by omega)]
  · intro E cb hcb1 hcb256
    obtain ⟨hhl2, hhb2⟩ := hh E
    exact arbitraryChecksumValue_slice (hash E) cb hhl2 hhb2 hcb1 hcb256

/-- Witness for claim C2 at a concrete registry, hash and 100-byte entropy
(25 checksum bits, spanning four digest bytes). -/
theorem claim_C2_witness :
    (∃ words, ArbitraryEntropyToMnemonic witnessMnemonic witnessHash (List.replicate 100 42) =
        .ok (joinWords witnessMnemonic.delimiter words) ∧
      words.length = 3 * ((padTo32Bits (List.replicate 100 42)).length / 4) ∧
      ∀ i, i < words.length → words.getD i [] = witnessMnemonic.wordList.getD (bitsToNat
        (((bytesBits (padTo32Bits (List.replicate 100 42)) ++
          (bytesBits (witnessHash (padTo32Bits (List.replicate 100 42)))).take
          ((padTo32Bits (List.replicate 100 42)).length / 4)).drop (i * 11)).take 11)) []) ∧
    ∀ E : List Nat, ∀ cb : Nat, 1 ≤ cb → cb ≤ 256 →
      arbitraryChecksumValue (computeChecksum witnessHash E) cb =
        bitsToNat ((bytesBits (witnessHash E)).take cb) :=
  claim_C2_arbitrary_checksum witnessMnemonic witnessHash witnessMnemonic_wellFormed
    witnessHash_ok (List.replicate 100 42)
    (by
      intro b hb
      rw [List.eq_of_mem_replicate hb]
      omega)
    (by simp)
    (by decide)

/-- Claim C4: the generalized encoder succeeds on exactly 1024 bytes, fails
with the entropy-too-large error whenever the padded length exceeds 1024
bytes (in particular on 1025 input bytes), and fails with the
invalid-entropy error on empty input. -/
theorem claim_C4_boundaries :
    (∀ (m : Mnemonic) (hash : List Nat → List Nat) (e : List Nat), e.length = 1024 →
      ∃ s, ArbitraryEntropyToMnemonic m hash e = .ok s) ∧
    (∀ (m : Mnemonic) (hash : List Nat → List Nat) (e : List Nat), 1024 < e.length →
      ArbitraryEntropyToMnemonic m hash e = .error .entropyTooLarge) ∧
    (∀ (m : Mnemonic) (hash : List Nat → List Nat) (e : List Nat), e.length = 0 →
      ArbitraryEntropyToMnemonic m hash e = .error .invalidEntropy) := by
  refine ⟨?_, ?_, ?_⟩
  · intro m hash e h
    have hmod : padTo32Bits e = e := padTo32Bits_of_mod e (by omega)
    exact ⟨_, arbitrary_encode_eq m hash e (by omega) (by rw [hmod]; omega)⟩
  · intro m hash e h
    obtain ⟨p, hp4, hpad, hplen, hpmod⟩ := padTo32Bits_append e
    simp only [ArbitraryEntropyToMnemonic]
    rw [if_neg (by omega), if_pos (by omega)]
  · intro m hash e h
    simp only [ArbitraryEntropyToMnemonic]
    rw [if_pos h]

/-- Witness for claim C4 at 1024, 1025 and 0 input bytes. -/
theorem claim_C4_witness :
    (∃ s, ArbitraryEntropyToMnemonic witnessMnemonic witnessHash (List.replicate 1024 0) =
      .ok s) ∧
    ArbitraryEntropyToMnemonic witnessMnemonic witnessHash (List.replicate 1025 0) =
      .error .entropyTooLarge ∧
    ArbitraryEntropyToMnemonic witnessMnemonic witnessHash [] = .error .invalidEntropy :=
  ⟨claim_C4_boundaries.1 witnessMnemonic witnessHash _ (by simp),
   claim_C4_boundaries.2.1 witnessMnemonic witnessHash _ (by simp),
   claim_C4_boundaries.2.2 witnessMnemonic witnessHash [] rfl⟩

/-- Claim C5: the standard decoder rejects any word count outside
{12, 15, 18, 21, 24} with the invalid-number-of-words error, for every
registry and hash (so before any word lookup or hashing can influence the
result); the generalized decoder likewise rejects any word count that is
zero or not a multiple of three. -/
theorem claim_C5_word_count_gating :
    (∀ (m : Mnemonic) (hash : List Nat → List Nat) (s : List Char),
      isValidWordsSize (SplitMnemonic s).1.length = false →
      EntropyFromMnemonic m hash s = .error .invalidNumberWords) ∧
    (∀ (m : Mnemonic) (hash : List Nat → List Nat) (s : List Char),
      (SplitMnemonic s).1.length = 0 ∨ (SplitMnemonic s).1.length % 3 ≠ 0 →
      ArbitraryMnemonicToEntropy m hash s = .error .invalidNumberWords) := by
  constructor
  · intro m hash s h
    simp only [EntropyFromMnemonic, h]
    rfl
  · intro m hash s h
    simp only [ArbitraryMnemonicToEntropy]
    rcases h with h | h
    · rw [if_pos (by simp [h])]
    · rw [if_pos (by simp [h])]

/-- Witness for claim C5: a 13-word input for the standard decoder and a
4-word input for the generalized decoder. -/
theorem claim_C5_witness :
    (isValidWordsSize (SplitMnemonic (joinWords [regularSpace]
        (List.replicate 13 [Char.ofNat 65]))).1.length = false ∧
      EntropyFromMnemonic witnessMnemonic witnessHash
        (joinWords [regularSpace] (List.replicate 13 [Char.ofNat 65])) =
        .error .invalidNumberWords) ∧
    ((SplitMnemonic (joinWords [regularSpace]
        (List.replicate 4 [Char.ofNat 65]))).1.length % 3 ≠ 0 ∧
      ArbitraryMnemonicToEntropy witnessMnemonic witnessHash
        (joinWords [regularSpace] (List.replicate 4 [Char.ofNat 65])) =
        .error .invalidNumberWords) :=
  ⟨⟨by decide,
    claim_C5_word_count_gating.1 witnessMnemonic witnessHash _ (by decide)⟩,
   ⟨by decide,
    claim_C5_word_count_gating.2 witnessMnemonic witnessHash _ (Or.inr (by decide))⟩⟩

end Bip39
